import Mathlib

/-!
# Verification of the go-tdigest quantile sketch

A shallow embedding of the `tdigest` Go package (centroid summary, weighted
insertion, compression, merge, quantile/CDF evaluation, binary codec) together
with proofs and refutations of the specified properties.

Modelling conventions:

* `float64` values that can be NaN are modelled as `Option ℚ` (`none` = NaN).
  Arithmetic on rationals is exact; the verified statements do not hinge on
  rounding (margins in all concrete evaluations are far wider than one ulp).
  Division by zero is mapped to `none`; no settled statement reaches a zero
  denominator (the Go code would produce ±Inf there).
* Machine integers (`uint32`, `uint64`, array indices) are modelled as `ℕ`
  (with explicit wrapping where it matters); none of the claims exercises
  integer overflow.
* The process RNG is an injected capability; it is modelled as an infinite
  tape of draws (one stream for `Float32`, one for `Intn`) together with a
  cursor stored in the digest, so that every concrete behaviour of the Go
  RNG corresponds to some tape.
* The parallel arrays `means []float64` / `counts []uint32` of the summary are
  modelled as a single list of (mean, count) pairs; the Go code always moves
  both arrays in lockstep.
-/

namespace GoTDigest

/-- `float64` including NaN: `none` is NaN, `some q` a finite value. -/
abbrev F := Option ℚ

/-- Go float addition (NaN propagates). -/
def fAdd : F → F → F
  | some a, some b => some (a + b)
  | _, _ => none

/-- Go float subtraction (NaN propagates). -/
def fSub : F → F → F
  | some a, some b => some (a - b)
  | _, _ => none

/-- Go float multiplication (NaN propagates). -/
def fMul : F → F → F
  | some a, some b => some (a * b)
  | _, _ => none

/-- Go float division. NaN propagates; a zero divisor is mapped to `none`
(the Go code would produce ±Inf or NaN; no verified statement reaches it). -/
def fDiv : F → F → F
  | some a, some b => if b = 0 then none else some (a / b)
  | _, _ => none

/-- Go `math.Abs` (NaN propagates). -/
def fAbs : F → F
  | some a => some |a|
  | none => none

/-- Go `<` on floats: any comparison involving NaN is false. -/
def fLt : F → F → Bool
  | some a, some b => a < b
  | _, _ => false

/-- Go `<=` on floats: any comparison involving NaN is false. -/
def fLe : F → F → Bool
  | some a, some b => a ≤ b
  | _, _ => false

/-- Go `math.MaxFloat64`. -/
def maxFloat64 : ℚ := (2 ^ 53 - 1) * 2 ^ 971

/-- A centroid: a mean (possibly NaN) and an integer weight.
The Go summary stores these as two parallel arrays. -/
structure Cent where
  mean : F
  cnt : ℕ
  deriving DecidableEq, Repr

/-- Number of centroids (`summary.Len`). -/
def sLen (s : List Cent) : ℕ := s.length

/-- `summary.findInsertionIndex`: smallest index whose mean is `> x`
(ties inserted to the right).  The Go code switches to binary search above
250 elements; on a sorted array that computes the same index. -/
def findInsertionIndex (s : List Cent) (x : F) : ℕ :=
  match s with
  | [] => 0
  | c :: rest => if fLt x c.mean then 0 else findInsertionIndex rest x + 1

/-- `summary.findIndex`: smallest index whose mean is `≥ x`.
As in the source, a NaN `x` compares false everywhere, giving `len`. -/
def findIndex (s : List Cent) (x : F) : ℕ :=
  match s with
  | [] => 0
  | c :: rest => if fLe x c.mean then 0 else findIndex rest x + 1

/-- `summary.Floor`: largest index with mean `< x`, else −1. -/
def sFloor (s : List Cent) (x : F) : ℤ := (findIndex s x : ℤ) - 1

/-- Sum of the counts of the first `i` centroids (`summary.HeadSum`).
The sum-cache accelerator of the Go implementation is verified separately
(theorems for claim C10) to always return exactly this value. -/
def headSum (s : List Cent) (i : ℕ) : ℕ := ((s.take i).map Cent.cnt).sum

/-- Total weight stored in the summary. -/
def totalCnt (s : List Cent) : ℕ := (s.map Cent.cnt).sum

/-- Loop of `summary.FloorSum`: runs over the counts keeping the last index
whose prefix sum is still `≤ sum`, stopping at the first that is not. -/
def floorSumGo (sum : ℚ) : List Cent → ℕ → ℤ → ℚ → ℤ × ℚ
  | [], _, idx, cum => (idx, cum)
  | c :: rest, i, idx, cum =>
    if cum ≤ sum then floorSumGo sum rest (i + 1) i (cum + c.cnt)
    else (idx, cum)

/-- `summary.FloorSum`: largest index whose head sum is `≤ sum`, paired with
that head sum (−1 and 0 when no centroid qualifies). -/
def floorSum (s : List Cent) (sum : ℚ) : ℤ × ℚ :=
  let r := floorSumGo sum s 0 (-1) 0
  if r.1 ≠ -1 then
    (r.1, r.2 - ((s.getD r.1.toNat ⟨none, 0⟩).cnt : ℚ))
  else r

inductive Err where
  | nanKey        -- summary.Add: "Key must not be NaN"
  | zeroCount     -- summary.Add: "Count must be >0" / AddWeighted w == 0
  | outOfFuel     -- divergence sentinel of the fuelled compression loop
  | badVersion    -- codec: unsupported encoding version
  | shortBuffer   -- codec: truncated input
  | badNumCentroids
  | badVarint
  | badCompression -- New: compression < 1 (a panic in this source revision)
  deriving DecidableEq, Repr

/-- `summary.Add`: validates the key and count, then inserts at
`findInsertionIndex`, shifting later elements right.  Returns the (possibly
unchanged) summary and an optional error, mirroring the Go mutation+error
style. -/
def summaryAdd (s : List Cent) (key : F) (value : ℕ) : List Cent × Option Err :=
  if key.isNone then (s, some .nanKey)
  else if value = 0 then (s, some .zeroCount)
  else (s.insertIdx (findInsertionIndex s key) ⟨key, value⟩, none)

/-- `summary.adjustRight`: bubble the element at `index` rightwards while it
exceeds its successor.  The Go loop swaps adjacent slots; functionally the
element is inserted into the (sorted) suffix. -/
def bubbleRight (a : Cent) : List Cent → List Cent
  | [] => [a]
  | b :: t => if fLt b.mean a.mean then b :: bubbleRight a t else a :: b :: t

/-- `summary.adjustLeft` on the reversed prefix: bubble the element leftwards
while its predecessor exceeds it. -/
def bubbleLeftRev (a : Cent) : List Cent → List Cent
  | [] => [a]
  | b :: t => if fLt a.mean b.mean then b :: bubbleLeftRev a t else a :: b :: t

/-- `summary.setAt`: overwrite slot `index`, then restore sort order by the
two adjacent bubble passes (`adjustRight` then `adjustLeft`). -/
def setAt (s : List Cent) (index : ℕ) (mean : F) (cnt : ℕ) : List Cent :=
  let s' := s.set index ⟨mean, cnt⟩
  -- adjustRight: acts on the element at `index` and the suffix after it
  let s'' := s'.take index ++ bubbleRight (s'.getD index ⟨mean, cnt⟩) (s'.drop (index + 1))
  -- adjustLeft: acts on the prefix before `index` and the element at `index`
  (bubbleLeftRev (s''.getD index ⟨mean, cnt⟩) (s''.take index).reverse).reverse
    ++ s''.drop (index + 1)

instance : Inhabited Cent := ⟨⟨none, 0⟩⟩

/-- Mean at position `i` (`summary.Mean`, unchecked in the source). -/
def mAt (s : List Cent) (i : ℕ) : F := (s.getD i default).mean

/-- Count at position `i` (`summary.Count`, unchecked in the source). -/
def cAt (s : List Cent) (i : ℕ) : ℕ := (s.getD i default).cnt

/-- The injected RNG capability, modelled as two infinite tapes of draws:
`fl n` is the value returned by the n-th `Float32()` / `Intn` call (intended
in `[0,1)`), `int n` the raw draw behind the n-th `Intn` call.  A cursor in
the digest advances on every call, so any concrete Go RNG behaviour is
realised by some tape. -/
structure RNG where
  fl : ℕ → ℚ
  int : ℕ → ℕ

/-- `rand.Intn i` at tape position `pos` (used with `i > 0` only). -/
def rngIntn (rng : RNG) (pos : ℕ) (i : ℕ) : ℕ := rng.int pos % i

/-- The digest: summary, compression δ, total weight, RNG cursor. -/
structure TD where
  cents : List Cent
  compression : ℚ
  count : ℕ
  pos : ℕ
  deriving Repr

/-- `New(...)` with only the compression configured: empty summary,
zero count (`estimateCapacity` only pre-sizes storage). -/
def newTD (compression : ℚ) : TD := ⟨[], compression, 0, 0⟩

/-- `findNeighbors` walk: from `start` keep walking right while the distance
to `value` strictly decreases; stop at the first strict increase. Returns
the window `[begin, lastNeighbor)` of nearest neighbours. -/
def fnGo (s : List Cent) (value : F) : ℕ → ℕ → ℕ → F → ℕ × ℕ
  | 0, _, start, _ => (start, sLen s)
  | fuel + 1, neighbor, start, minD =>
    if neighbor < sLen s then
      let z := fAbs (fSub (mAt s neighbor) value)
      if fLt z minD then fnGo s value fuel (neighbor + 1) neighbor z
      else if fLt minD z then (start, neighbor)
      else fnGo s value fuel (neighbor + 1) start minD
    else (start, sLen s)

/-- `TDigest.findNeighbors`.  The fuel `sLen s − start` covers every loop
iteration, so exhaustion coincides with the loop running off the array. -/
def findNeighbors (s : List Cent) (start : ℕ) (value : F) : ℕ × ℕ :=
  fnGo s value (sLen s - start) start start (some maxFloat64)

/-- Loop of `chooseMergeCandidate`: walk the window accumulating the head
sum, test the scale-function ceiling `k = 4·N·q·(1−q)/δ`, and reservoir-sample
one eligible index.  `fuel` is the window width (the Go loop runs while
`neighbor != end`). -/
def cmcGo (rng : RNG) (N δ w : ℚ) (nIs1 : Bool) (s : List Cent) :
    ℕ → ℕ → ℚ → ℚ → ℕ → ℕ → ℕ × ℕ
  | 0, _, _, _, closest, pos => (closest, pos)
  | fuel + 1, neighbor, sum, n, closest, pos =>
    let c : ℚ := (cAt s neighbor : ℚ)
    let q : ℚ := if nIs1 then 1/2 else (sum + (c - 1) / 2) / (N - 1)
    let k : ℚ := 4 * N * q * (1 - q) / δ
    if c + w ≤ k then
      if rng.fl pos < 1 / (n + 1) then
        cmcGo rng N δ w nIs1 s fuel (neighbor + 1) (sum + c) (n + 1) neighbor (pos + 1)
      else
        cmcGo rng N δ w nIs1 s fuel (neighbor + 1) (sum + c) (n + 1) closest (pos + 1)
    else
      cmcGo rng N δ w nIs1 s fuel (neighbor + 1) (sum + c) n closest pos

/-- `TDigest.chooseMergeCandidate` over the window `[begin, endn)`:
returns the selected index (`len` when no centroid is eligible) and the
advanced RNG cursor. -/
def chooseMergeCandidate (rng : RNG) (t : TD) (begin' endn : ℕ) (w : ℕ) : ℕ × ℕ :=
  cmcGo rng (t.count : ℚ) t.compression (w : ℚ) (t.count == 1) t.cents
    (endn - begin') begin' ((headSum t.cents begin' : ℕ) : ℚ) 0 (sLen t.cents) t.pos

/-- `weightedAverage`: order the two points, then form the convex
combination `x1·w1/(w1+w2) + x2·w2/(w1+w2)`. -/
def weightedAverage (x1 : F) (w1 : ℚ) (x2 : F) (w2 : ℚ) : F :=
  if fLt x2 x1 then
    fAdd (fDiv (fMul x2 (some w2)) (some (w2 + w1))) (fDiv (fMul x1 (some w1)) (some (w2 + w1)))
  else
    fAdd (fDiv (fMul x1 (some w1)) (some (w1 + w2))) (fDiv (fMul x2 (some w2)) (some (w1 + w2)))

/-- `AddWeighted` without the final compression trigger: validate the
weight, handle the empty summary (note the source sets `t.count` even when
`summary.Add` rejects a NaN value), otherwise locate the neighbour window,
reservoir-sample a merge target and either merge in place via `setAt` or
insert a fresh centroid. -/
def awCore (rng : RNG) (t : TD) (value : F) (w : ℕ) : TD × Option Err :=
  if w = 0 then (t, some .zeroCount)
  else if sLen t.cents = 0 then
    let r := summaryAdd t.cents value w
    ({ t with cents := r.1, count := w }, r.2)
  else
    let begin0 : ℕ := (sFloor t.cents value).toNat
    let fn := findNeighbors t.cents begin0 value
    let cm := chooseMergeCandidate rng t fn.1 fn.2 w
    if cm.1 = sLen t.cents then
      let r := summaryAdd t.cents value w
      match r.2 with
      | some e => ({ t with pos := cm.2 }, some e)
      | none => ({ t with cents := r.1, count := t.count + w, pos := cm.2 }, none)
    else
      let c := cAt t.cents cm.1
      let newMean := weightedAverage (mAt t.cents cm.1) (c : ℚ) value (w : ℚ)
      ({ t with cents := setAt t.cents cm.1 newMean (c + w),
                count := t.count + w, pos := cm.2 }, none)

/-- Swap two positions of the centroid array. -/
def lswap (l : List Cent) (i j : ℕ) : List Cent :=
  (l.set i (l.getD j default)).set j (l.getD i default)

/-- The shuffle loop of `tdigest.shuffle` / `summary.shuffle`: for `i` from
`len−1` down while `i > 1`, swap position `i` with `Intn(i+1)`.  (Note the
loop stops at `i = 2`; position 1 is never the moving index.) -/
def shuffleGo (rng : RNG) : ℕ → List Cent → ℕ → List Cent × ℕ
  | 0, l, pos => (l, pos)
  | 1, l, pos => (l, pos)
  | i + 2, l, pos =>
    shuffleGo rng (i + 1) (lswap l (i + 2) (rngIntn rng pos (i + 3))) (pos + 1)

/-- `shuffle(means, counts, rng)` on the paired representation. -/
def shuffle (rng : RNG) (l : List Cent) (pos : ℕ) : List Cent × ℕ :=
  shuffleGo rng (l.length - 1) l pos

/-- The trigger of the automatic compression:
`float64(t.summary.Len()) > 20*t.compression`. -/
def compressTrigger (t : TD) : Prop := 20 * t.compression < (sLen t.cents : ℚ)

instance (t : TD) : Decidable (compressTrigger t) := by
  unfold compressTrigger; infer_instance

/-- One `AddWeighted` call built from the insertion core and a compression
continuation `cf` (invoked when the summary outgrows `20·δ`). -/
def awStep (cf : TD → TD × Option Err) (rng : RNG) (t : TD) (c : Cent) :
    TD × Option Err :=
  let r := awCore rng t c.mean c.cnt
  match r.2 with
  | some e => (r.1, some e)
  | none => if compressTrigger r.1 then cf r.1 else (r.1, none)

/-- The replay loop shared by `Compress` and `Merge`: feed each (mean,
count) pair through the step, stopping at the first error as the `ForEach`
callbacks do. -/
def replayWith (step : TD → Cent → TD × Option Err) :
    List Cent → TD → TD × Option Err
  | [], t => (t, none)
  | c :: rest, t =>
    match step t c with
    | (t', some e) => (t', some e)
    | (t', none) => replayWith step rest t'

/-- `Compress`: no-op on ≤ 1 centroid, otherwise detach the summary, reset
the count, shuffle the old contents and replay them through `AddWeighted`.
`fuel` bounds the depth of re-entrant compressions (the Go recursion);
exhausting it reports `outOfFuel`, so every terminating Go execution is
captured by a sufficiently large fuel. -/
def compressFuel (rng : RNG) : ℕ → TD → TD × Option Err
  | 0, t => if sLen t.cents ≤ 1 then (t, none) else (t, some .outOfFuel)
  | f + 1, t =>
    if sLen t.cents ≤ 1 then (t, none)
    else
      let sh := shuffle rng t.cents t.pos
      replayWith (awStep (compressFuel rng f) rng) sh.1
        { t with cents := [], count := 0, pos := sh.2 }

/-- The replay loop at one compression-fuel level. -/
def replayGo (rng : RNG) (f : ℕ) : List Cent → TD → TD × Option Err :=
  replayWith (awStep (compressFuel rng f) rng)

/-- `AddWeighted`: the insertion core followed by the compression trigger. -/
def addWeighted (rng : RNG) (fuel : ℕ) (t : TD) (value : F) (w : ℕ) : TD × Option Err :=
  awStep (compressFuel rng fuel) rng t ⟨value, w⟩

/-- `Add`: alias for `AddWeighted(x, 1)`. -/
def addOne (rng : RNG) (fuel : ℕ) (t : TD) (value : F) : TD × Option Err :=
  addWeighted rng fuel t value 1

/-- `Merge`: no-op on an empty donor, otherwise clone the donor's summary
(the donor is never written to), shuffle the clone with the receiver's RNG
and replay it through `AddWeighted`. -/
def mergeTD (rng : RNG) (fuel : ℕ) (t other : TD) : TD × Option Err :=
  if sLen other.cents = 0 then (t, none)
  else
    let sh := shuffle rng other.cents t.pos
    replayGo rng fuel sh.1 { t with pos := sh.2 }

/-- The piecewise-linear interpolator `_quantile`:
`y0·(x1−x)/(x1−x0) + y1·(x−x0)/(x1−x0)`. -/
def qInterp (index prevIdx nextIdx : ℚ) (prevMean nextMean : F) : F :=
  let delta := nextIdx - prevIdx
  fAdd (fMul prevMean (fDiv (some (nextIdx - index)) (some delta)))
       (fMul nextMean (fDiv (some (index - prevIdx)) (some delta)))

/-- The forward walk of `Quantile`.  `prevMean = none` is the NaN sentinel
meaning "no previous centroid yet".  `fuel` bounds the number of steps (the
Go loop advances `next` towards the last centroid); it is unreachable on
valid digests and returns NaN when exhausted. -/
def quantLoop (s : List Cent) (cnt64 : ℕ) (index : ℚ) :
    ℕ → ℕ → ℚ → F → ℚ → F
  | 0, _, _, _, _ => none
  | fuel + 1, next, total, prevMean, prevIdx =>
    let nextIndex := total + ((cAt s next : ℚ) - 1) / 2
    if index ≤ nextIndex then
      if prevMean.isNone then
        -- the index is before the 1st centroid
        if nextIndex = prevIdx then mAt s next
        else
          -- assume linear growth
          let nextIndex2 := total + (cAt s next : ℚ) + ((cAt s (next + 1) : ℚ) - 1) / 2
          let pm := fDiv (fSub (fMul (some nextIndex2) (mAt s next))
                               (fMul (some nextIndex) (mAt s (next + 1))))
                         (some (nextIndex2 - nextIndex))
          qInterp index prevIdx nextIndex pm (mAt s next)
      else qInterp index prevIdx nextIndex prevMean (mAt s next)
    else if next + 1 = sLen s then
      -- the index is after the last centroid
      let nextIndex2 := (cnt64 : ℚ) - 1
      let nextMean2 := fDiv (fSub (fMul (mAt s next) (some (nextIndex2 - prevIdx)))
                                  (fMul prevMean (some (nextIndex2 - nextIndex))))
                            (some (nextIndex - prevIdx))
      qInterp index nextIndex nextIndex2 (mAt s next) nextMean2
    else
      quantLoop s cnt64 index fuel (next + 1) (total + (cAt s next : ℚ))
        (mAt s next) nextIndex

/-- `Quantile(q)`.  The source panics for `q ∉ [0,1]`; the model returns NaN
there (no verified statement reaches that branch).  Empty digest: NaN;
single centroid: its mean; otherwise walk from `FloorSum(q·(N−1))`. -/
def quantile (t : TD) (q : ℚ) : F :=
  if q < 0 ∨ 1 < q then none
  else if sLen t.cents = 0 then none
  else if sLen t.cents = 1 then mAt t.cents 0
  else
    let index := q * ((t.count : ℚ) - 1)
    let fs := floorSum t.cents index
    let next := fs.1.toNat
    let pm : F × ℚ :=
      if 0 < fs.1 then
        (mAt t.cents (next - 1), fs.2 - ((cAt t.cents (next - 1) : ℚ) + 1) / 2)
      else (none, 0)
    quantLoop t.cents t.count index (sLen t.cents) next fs.2 pm.1 pm.2

/-- `interpolate(x, x0, x1) = (x−x0)/(x1−x0)`. -/
def interpolate (x x0 x1 : F) : F := fDiv (fSub x x0) (fSub x1 x0)

/-- The scan of `CDF` from the second centroid onwards, carrying the
half-interval widths `left`/`right` and the accumulated weight `tot`.
While `i < len−1` this is the interior loop (whose result is clamped below
by 0); afterwards the final two-centroid block runs without that clamp. -/
def cdfLoop (s : List Cent) (cnt64 : ℕ) (value : F) :
    ℕ → ℕ → F → F → ℚ → F
  | 0, _, _, _, _ => none
  | fuel + 1, i, left, right, tot =>
    if i < sLen s - 1 then
      let prevMean := mAt s (i - 1)
      if fLt value (fAdd prevMean right) then
        let v := fDiv (fAdd (some tot)
            (fMul (some (cAt s (i - 1) : ℚ))
              (interpolate value (fSub prevMean left) (fAdd prevMean right))))
          (some (cnt64 : ℚ))
        if fLt (some 0) v then v else some 0
      else
        cdfLoop s cnt64 value fuel (i + 1) right
          (fDiv (fSub (mAt s (i + 1)) (mAt s i)) (some 2))
          (tot + (cAt s (i - 1) : ℚ))
    else
      -- last centroid, the summary length is at least two
      let aIdx := sLen s - 2
      let aMean := mAt s aIdx
      if fLt value (fAdd aMean right) then
        fDiv (fAdd (some tot)
            (fMul (some (cAt s aIdx : ℚ))
              (interpolate value (fSub aMean left) (fAdd aMean right))))
          (some (cnt64 : ℚ))
      else some 1

/-- `CDF(value)`: NaN when empty, a step function on one centroid, the
interval scan otherwise. -/
def cdf (t : TD) (value : F) : F :=
  if sLen t.cents = 0 then none
  else if sLen t.cents = 1 then
    if fLt value (mAt t.cents 0) then some 0 else some 1
  else
    let left := fDiv (fSub (mAt t.cents 1) (mAt t.cents 0)) (some 2)
    cdfLoop t.cents t.count value (sLen t.cents) 1 left left 0

/-! ## Data-model invariants (§3 of the specification) -/

/-- Means are non-decreasing (NaN-free lists only: `fLe` is false on NaN). -/
def sortedB : List Cent → Bool
  | [] => true
  | [_] => true
  | a :: b :: t => fLe a.mean b.mean && sortedB (b :: t)

/-- No stored mean is NaN. -/
def allSomeB (l : List Cent) : Bool := l.all (fun c => c.mean.isSome)

/-- Every count is at least 1. -/
def posCntB (l : List Cent) : Bool := l.all (fun c => decide (0 < c.cnt))

/-- The valid-sketch invariant: sorted NaN-free means, positive counts, and
`N = sum(counts)`. -/
def invB (t : TD) : Bool :=
  sortedB t.cents && allSomeB t.cents && posCntB t.cents
    && (totalCnt t.cents == t.count)

/-! ## Binary codec (serialization.go)

Big-endian fixed-width fields, IEEE-754 bit patterns for the floats,
unsigned base-128 varints for the counts.  Non-finite floats (±Inf) are
conflated with NaN (`none`) by the bit decoders, and the encoders do not
model overflow to ±Inf; no verified statement involves such values. -/

/-- Big-endian encoding of `v mod 256^k` on `k` bytes. -/
def beBytes : ℕ → ℕ → List ℕ
  | 0, _ => []
  | k + 1, v => beBytes k (v / 256) ++ [v % 256]

/-- Big-endian value of a byte list. -/
def beToNat (bs : List ℕ) : ℕ := bs.foldl (fun a b => a * 256 + b) 0

/-- Round to the nearest integer, ties to even. -/
def roundHalfEven (q : ℚ) : ℤ :=
  let f := ⌊q⌋
  let r := q - f
  if r < 1/2 then f
  else if 1/2 < r then f + 1
  else if f % 2 = 0 then f else f + 1

/-- Round a rational to the nearest IEEE-754 binary32 value
(`float32(x)` in Go); subnormals are handled, overflow to ±Inf is not. -/
def roundF32 (q : ℚ) : ℚ :=
  if q = 0 then 0
  else
    let s : ℚ := if q < 0 then -1 else 1
    let a := |q|
    let ulpE : ℤ := max (Int.log 2 a - 23) (-149)
    s * (roundHalfEven (a * (2 : ℚ) ^ (-ulpE)) : ℚ) * (2 : ℚ) ^ ulpE

/-- `math.Float32bits` for an exact binary32 value (the result is reduced
mod 2^32 as the Go type is `uint32`). -/
def float32bits (q : ℚ) : ℕ :=
  (if q = 0 then 0
   else
    let s : ℕ := if q < 0 then 1 else 0
    let a := |q|
    let e := Int.log 2 a
    if -126 ≤ e then
      s * 2 ^ 31 + (e + 127).toNat * 2 ^ 23 + (⌊a * (2 : ℚ) ^ (23 - e)⌋ - 2 ^ 23).toNat
    else
      s * 2 ^ 31 + (⌊a * (2 : ℚ) ^ (149 : ℤ)⌋).toNat) % 2 ^ 32

/-- `math.Float32frombits` (exponent 255, i.e. ±Inf/NaN, decodes to `none`). -/
def float32frombits (b : ℕ) : F :=
  let b := b % 2 ^ 32
  let sign := b / 2 ^ 31
  let e : ℕ := (b / 2 ^ 23) % 2 ^ 8
  let m : ℕ := b % 2 ^ 23
  if e = 255 then none
  else
    let mag : ℚ :=
      if e = 0 then (m : ℚ) * (2 : ℚ) ^ (-(149 : ℤ))
      else ((2 ^ 23 + m : ℕ) : ℚ) * (2 : ℚ) ^ ((e : ℤ) - 150)
    some (if sign = 1 then -mag else mag)

/-- `math.Float64bits` for an exact binary64 value (reduced mod 2^64). -/
def float64bits (q : ℚ) : ℕ :=
  (if q = 0 then 0
   else
    let s : ℕ := if q < 0 then 1 else 0
    let a := |q|
    let e := Int.log 2 a
    if -1022 ≤ e then
      s * 2 ^ 63 + (e + 1023).toNat * 2 ^ 52 + (⌊a * (2 : ℚ) ^ (52 - e)⌋ - 2 ^ 52).toNat
    else
      s * 2 ^ 63 + (⌊a * (2 : ℚ) ^ (1074 : ℤ)⌋).toNat) % 2 ^ 64

/-- `math.Float64frombits` (exponent 2047 decodes to `none`). -/
def float64frombits (b : ℕ) : F :=
  let b := b % 2 ^ 64
  let sign := b / 2 ^ 63
  let e : ℕ := (b / 2 ^ 52) % 2 ^ 11
  let m : ℕ := b % 2 ^ 52
  if e = 2047 then none
  else
    let mag : ℚ :=
      if e = 0 then (m : ℚ) * (2 : ℚ) ^ (-(1074 : ℤ))
      else ((2 ^ 52 + m : ℕ) : ℚ) * (2 : ℚ) ^ ((e : ℤ) - 1075)
    some (if sign = 1 then -mag else mag)

/-- `binary.PutUvarint`: LSB-first groups of 7 bits, high bit = continuation.
Ten groups cover every `uint64`; the fuel never runs out for `v < 2^70`. -/
def putUvarintGo : ℕ → ℕ → List ℕ
  | 0, v => [v]
  | fuel + 1, v =>
    if v < 0x80 then [v] else (v % 0x80 + 0x80) :: putUvarintGo fuel (v / 0x80)

def putUvarint (v : ℕ) : List ℕ := putUvarintGo 10 v

/-- `binary.ReadUvarint` / `binary.Uvarint` decode loop: returns the value
and the remaining bytes, or `none` on truncation or 64-bit overflow. -/
def readUvarintGo : ℕ → ℕ → ℕ → List ℕ → Option (ℕ × List ℕ)
  | _, _, _, [] => none
  | i, x, s, b :: rest =>
    if b < 0x80 then
      if i = 9 ∧ 1 < b then none  -- overflows a uint64
      else some (x + b * 2 ^ s, rest)
    else if 9 ≤ i then none
    else readUvarintGo (i + 1) (x + b % 0x80 * 2 ^ s) (s + 7) rest

def readUvarint (bs : List ℕ) : Option (ℕ × List ℕ) := readUvarintGo 0 0 0 bs

/-- The delta sequence written by `AsBytes`: every mean minus its
predecessor (the first relative to 0). -/
def deltaList : List Cent → F → List F
  | [], _ => []
  | c :: rest, x => fSub c.mean x :: deltaList rest c.mean

/-- `float32(delta)` followed by `Float32bits` (a NaN delta gets the Go
quiet-NaN pattern). -/
def f32enc : F → ℕ
  | none => 0x7FC00000
  | some q => float32bits (roundF32 q)

/-- `AsBytes`: version tag 2, compression as binary64, centroid count as
int32, means as binary32 deltas, counts as uvarints.  (Writing to the
in-memory buffer never fails, so no error component.) -/
def asBytes (t : TD) : List ℕ :=
  beBytes 4 2 ++ beBytes 8 (float64bits t.compression) ++ beBytes 4 (sLen t.cents)
    ++ ((deltaList t.cents (some 0)).map (fun d => beBytes 4 (f32enc d))).flatten
    ++ (t.cents.map (fun c => putUvarint c.cnt)).flatten

/-- The mean-reconstruction loop of the streaming `FromBytes`: read `n`
binary32 deltas, keeping the running sum `x`. -/
def readMeansGo : ℕ → List ℕ → F → Option (List F × List ℕ)
  | 0, bs, _ => some ([], bs)
  | k + 1, bs, x =>
    if bs.length < 4 then none
    else
      let x' := fAdd x (float32frombits (beToNat (bs.take 4)))
      match readMeansGo k (bs.drop 4) x' with
      | none => none
      | some (ms, rest) => some (x' :: ms, rest)

/-- The count loop of the streaming `FromBytes`: decode one uvarint per
mean and feed the pair through `Add`; a varint error aborts, while errors
returned by `Add` are discarded by the source. -/
def readerCountsGo (rng : RNG) (fuel : ℕ) : List F → List ℕ → TD → Except Err TD
  | [], _, t => .ok t
  | m :: ms, bs, t =>
    match readUvarint bs with
    | none => .error .badVarint
    | some (v, rest) => readerCountsGo rng fuel ms rest (addWeighted rng fuel t m v).1

/-- The streaming `FromBytes(buf *bytes.Reader)`: parse the header, build a
fresh digest via `New(compression)` (which panics—here: errors—on δ < 1),
reconstruct the means, then replay the counts through `Add`.  A NaN
compression (impossible for `AsBytes` payloads) would be stored as 0 here
where Go stores the NaN itself. -/
def fromBytesReader (rng : RNG) (fuel : ℕ) (bs : List ℕ) : Except Err TD :=
  if bs.length < 4 then .error .shortBuffer
  else if beToNat (bs.take 4) ≠ 2 then .error .badVersion
  else
    let bs1 := bs.drop 4
    if bs1.length < 8 then .error .shortBuffer
    else
      let comp := float64frombits (beToNat (bs1.take 8))
      if fLt comp (some 1) then .error .badCompression
      else
        let bs2 := bs1.drop 8
        if bs2.length < 4 then .error .shortBuffer
        else
          let n := beToNat (bs2.take 4)
          if 2 ^ 22 < n then .error .badNumCentroids
          else
            match readMeansGo n (bs2.drop 4) (some 0) with
            | none => .error .shortBuffer
            | some (means, rest) =>
              readerCountsGo rng fuel means rest
                { cents := [], compression := comp.getD 0, count := 0, pos := 0 }

/-- Mean-filling loop of the in-place `FromBytes` (bounds already checked). -/
def fbMeansGo : ℕ → List ℕ → F → List F
  | 0, _, _ => []
  | k + 1, bs, x =>
    let x' := fAdd x (float32frombits (beToNat (bs.take 4)))
    x' :: fbMeansGo k (bs.drop 4) x'

/-- Count-filling loop of the in-place `FromBytes`: overwrite slot `i` and
accumulate `t.count`; a varint error aborts mid-way, leaving the partially
overwritten array (the source's "this TDigest is now invalid"). -/
def fbCountsGo : ℕ → List ℕ → List ℕ → ℕ → ℕ → List ℕ × ℕ × Option Err
  | 0, _, counts, total, _ => (counts, total, none)
  | k + 1, bs, counts, total, i =>
    match readUvarint bs with
    | none => (counts, total, some .badVarint)
    | some (v, rest) => fbCountsGo k rest (counts.set i v) (total + v) (i + 1)

/-- The in-place `(t *TDigest) FromBytes(buf []byte)`: header validations
leave the target untouched; past them the count is zeroed, compression and
means are overwritten, and the counts are decoded into the re-sliced array
(whose retained memory is modelled as the old counts padded with zeros). -/
def fromBytesBuf (t : TD) (buf : List ℕ) : TD × Option Err :=
  if buf.length < 16 then (t, some .shortBuffer)
  else if beToNat (buf.take 4) ≠ 2 then (t, some .badVersion)
  else
    let comp := float64frombits (beToNat ((buf.drop 4).take 8))
    let n := beToNat ((buf.drop 12).take 4)
    if 2 ^ 22 < n then (t, some .badNumCentroids)
    else if buf.length < 16 + 4 * n then (t, some .shortBuffer)
    else
      let oldCounts := t.cents.map Cent.cnt
      let countsInit := oldCounts.take n ++ List.replicate (n - oldCounts.length) 0
      let means := fbMeansGo n (buf.drop 16) (some 0)
      let r := fbCountsGo n (buf.drop (16 + 4 * n)) countsInit 0 0
      ({ cents := List.zipWith (fun m c => ⟨m, c⟩) means r.1,
         compression := comp.getD 0, count := r.2.1, pos := t.pos }, r.2.2)

/-! ## The prefix-sum accelerator (`sumCache`, summary.go)

A faithful model of the cached summary: every 4th index may have its head
sum cached; `Add` invalidates, `HeadSum` reads and extends the cache.  The
claim-C10 theorems show the cache is semantically transparent. -/

structure SumCache where
  sums : List ℕ
  valid : ℤ
  deriving Repr, DecidableEq

/-- A summary together with its optional prefix-sum cache. -/
structure CSummary where
  cents : List Cent
  cache : Option SumCache
  deriving Repr

/-- `sumCache.Set(idx, sum)`: record the head sum up to `idx` in slot
`idx>>2 − 1` (appending when it is the next free slot) and mark it as the
last valid slot.  No-op on a nil cache or `idx < 4`. -/
def cacheSet (c : Option SumCache) (idx sum : ℕ) : Option SumCache :=
  match c with
  | none => none
  | some c =>
    if idx < 4 then some c
    else
      let k := idx / 4 - 1
      let sums' := if k = c.sums.length then c.sums ++ [sum] else c.sums.set k sum
      some ⟨sums', (k : ℤ)⟩

/-- `sumCache.Invalidate(idx)` after an insertion at `idx`: every slot from
`idx>>2 − 1` on is no longer trusted. -/
def cacheInvalidate (c : Option SumCache) (idx : ℕ) : Option SumCache :=
  match c with
  | none => none
  | some c =>
    let k : ℤ := (idx / 4 : ℕ) - 1
    if k - 1 < c.valid then some ⟨c.sums, k - 1⟩ else some c

/-- `sumCache.Get(idx)`: the largest cached head sum at or below `idx`
(clamped to the last valid slot), or `(0, 0)` when nothing applies. -/
def cacheGet (c : Option SumCache) (idx : ℕ) : ℕ × ℕ :=
  match c with
  | none => (0, 0)
  | some c =>
    if idx < 4 ∨ c.valid < 0 then (0, 0)
    else
      let k : ℤ := (idx / 4 : ℕ) - 1
      if k ≤ c.valid then (((k + 1) * 4).toNat, c.sums.getD k.toNat 0)
      else (((c.valid + 1) * 4).toNat, c.sums.getD c.valid.toNat 0)

/-- The unrolled block loop of `summary.HeadSum`: while `i < end − 3`,
record the running sum in the cache and add the next four counts. -/
def hsLoop1 (cents : List Cent) (endN : ℕ) : ℕ → ℕ → ℕ → Option SumCache →
    ℕ × ℕ × Option SumCache
  | 0, i, sum, cache => (i, sum, cache)
  | fuel + 1, i, sum, cache =>
    if i + 4 ≤ endN then
      hsLoop1 cents endN fuel (i + 4)
        (sum + cAt cents i + cAt cents (i + 1) + cAt cents (i + 2) + cAt cents (i + 3))
        (cacheSet cache i sum)
    else (i, sum, cache)

/-- The trailing loop of `summary.HeadSum`. -/
def hsLoop2 (cents : List Cent) (endN : ℕ) : ℕ → ℕ → ℕ → ℕ
  | 0, _, sum => sum
  | fuel + 1, i, sum =>
    if i < endN then hsLoop2 cents endN fuel (i + 1) (sum + cAt cents i) else sum

/-- `summary.HeadSum(end)` with the cache: start from the best cached
prefix, run the two loops, return the sum and the updated cache state. -/
def headSumC (s : CSummary) (endN : ℕ) : ℕ × CSummary :=
  let g := cacheGet s.cache endN
  if g.1 = endN then (g.2, s)
  else
    let r := hsLoop1 s.cents endN endN g.1 g.2 s.cache
    (hsLoop2 s.cents endN endN r.1 r.2.1, ⟨s.cents, r.2.2⟩)

/-- `summary.Add` on the cached summary: validate, insert, then invalidate
the cache (or create it, with `newLen` slots of zeros standing for
`newSumCache(cap(s.means))`, once the summary exceeds 100 entries). -/
def addC (newLen : ℕ) (s : CSummary) (key : F) (value : ℕ) : CSummary × Option Err :=
  if key.isNone then (s, some .nanKey)
  else if value = 0 then (s, some .zeroCount)
  else
    let idx := findInsertionIndex s.cents key
    let cents' := s.cents.insertIdx idx ⟨key, value⟩
    let cache' :=
      match s.cache with
      | some c => cacheInvalidate (some c) idx
      | none => if 100 < cents'.length then some ⟨List.replicate newLen 0, -1⟩ else none
    (⟨cents', cache'⟩, none)

/-- Summary states reachable by any interleaving of `Add` and `HeadSum`
calls (with any creation capacity for the cache and any in-range query). -/
inductive ReachC : CSummary → Prop
  | init : ReachC ⟨[], none⟩
  | add (s : CSummary) (K : ℕ) (key : F) (value : ℕ) :
      ReachC s → ReachC (addC K s key value).1
  | head (s : CSummary) (endN : ℕ) :
      ReachC s → endN ≤ s.cents.length → ReachC (headSumC s endN).2

/-! ## Spec-side definitions -/

/-- Modelled from the spec: the standard Fisher–Yates shuffle it requires
("for every index i from len−1 down to 1 it swaps position i with a
position drawn uniformly from [0, i]"), for comparison with the code's
`shuffle`. -/
def specFYGo (rng : RNG) : ℕ → List Cent → ℕ → List Cent × ℕ
  | 0, l, pos => (l, pos)
  | i + 1, l, pos =>
    specFYGo rng i (lswap l (i + 1) (rngIntn rng pos (i + 2))) (pos + 1)

/-- The spec's Fisher–Yates covering all indices down to 1. -/
def specFisherYates (rng : RNG) (l : List Cent) (pos : ℕ) : List Cent × ℕ :=
  specFYGo rng (l.length - 1) l pos

/-- The mean order used for sortedness (false whenever a NaN is involved,
like the Go comparisons). -/
def leF (x y : Cent) : Prop := fLe x.mean y.mean = true

instance : DecidablePred fun p : Cent × Cent => leF p.1 p.2 := by
  intro p; unfold leF; infer_instance

instance (x y : Cent) : Decidable (leF x y) := by unfold leF; infer_instance

/-- Valid sketch (Prop form of `invB`): sorted NaN-free means, positive
counts, `N = sum(counts)`. -/
structure IT (t : TD) : Prop where
  sorted : t.cents.Pairwise leF
  allSome : ∀ c ∈ t.cents, c.mean.isSome
  posCnt : ∀ c ∈ t.cents, 0 < c.cnt
  total : totalCnt t.cents = t.count

/-! ## Concrete instances used by witnesses and counterexamples -/

/-- A fixed RNG tape: every `Float32` draw is 0, every `Intn` draw is 0. -/
def rng0 : RNG := ⟨fun _ => 0, fun _ => 0⟩

/-- The digest [(0,3), (10,1)] at δ = 100 — reachable by `AddWeighted(0,3)`
then `AddWeighted(10,1)` on a fresh digest (proved with its counterexample). -/
def tC2 : TD := ⟨[⟨some 0, 3⟩, ⟨some 10, 1⟩], 100, 4, 0⟩

/-- The digest [(0,1), (1,1)] at δ = 100 — reachable by `AddWeighted(0,1)`
then `AddWeighted(1,1)` on a fresh digest (proved with its counterexample). -/
def tC4 : TD := ⟨[⟨some 0, 1⟩, ⟨some 1, 1⟩], 100, 2, 0⟩

/-- The digest [(0,67), (1,33), (2,1)] at δ = 1 — reachable by
`AddWeighted(2,1)`, `AddWeighted(0,67)`, `AddWeighted(1,33)` on a fresh
digest (proved with the C1 counterexample). -/
def tC1 : TD := ⟨[⟨some 0, 67⟩, ⟨some 1, 33⟩, ⟨some 2, 1⟩], 1, 101, 0⟩

/-- A small valid digest for exercising `Compress`. -/
def wC6 : TD := ⟨[⟨some 0, 1⟩, ⟨some 1, 2⟩], 100, 3, 0⟩

/-- A small valid receiver digest. -/
def tC7a : TD := ⟨[⟨some 1, 2⟩], 10, 2, 0⟩

/-- A small valid donor digest. -/
def tC7b : TD := ⟨[⟨some 0, 1⟩, ⟨some 3, 4⟩], 10, 5, 0⟩

/-- A valid one-centroid digest used as the `FromBytes` target. -/
def tC8 : TD := ⟨[⟨some 5, 7⟩], 100, 7, 0⟩

/-- A 20-byte buffer: version 2, compression 50 (binary64), one centroid,
one binary32 delta — and no varint bytes at all. -/
def bufC8 : List ℕ :=
  [0, 0, 0, 2, 0x40, 0x49, 0, 0, 0, 0, 0, 0, 0, 0, 0, 1, 0, 0, 0, 0]

/-- Invariant/weight bookkeeping of `Compress`, stated for one fuel level. -/
def CompressProps (fuel : ℕ) : Prop :=
  ∀ (rng : RNG) (t : TD), IT t →
    IT (compressFuel rng fuel t).1 ∧
    (compressFuel rng fuel t).1.compression = t.compression ∧
    ((compressFuel rng fuel t).2 = none →
      (compressFuel rng fuel t).1.count = t.count)

/-- Invariant/weight bookkeeping of the replay loop, one fuel level. -/
def ReplayProps (fuel : ℕ) : Prop :=
  ∀ (rng : RNG) (l : List Cent) (t : TD), IT t →
    (∀ c ∈ l, c.mean.isSome ∧ c.cnt ≠ 0) →
    IT (replayGo rng fuel l t).1 ∧
    (replayGo rng fuel l t).1.compression = t.compression ∧
    ((replayGo rng fuel l t).2 = none →
      (replayGo rng fuel l t).1.count = t.count + totalCnt l)

/-- Strict mean order (false whenever a NaN is involved). -/
def ltF (x y : Cent) : Prop := fLt x.mean y.mean = true

instance (x y : Cent) : Decidable (ltF x y) :=
  inferInstanceAs (Decidable (fLt x.mean y.mean = true))

/-- Soundness of the prefix-sum cache against the plain head sums: every
slot up to the last valid one stores the head sum of its block boundary. -/
def CacheOK (cents : List Cent) : Option SumCache → Prop
  | none => True
  | some c => ∀ j : ℕ, (j : ℤ) ≤ c.valid →
      c.sums.getD j 0 = headSum cents (4 * (j + 1))

/-- `q` is an exact binary64 value: encoding and decoding it through the
IEEE-754 bit patterns is the identity.  This is the precondition under
which the Go code serializes the compression losslessly. -/
def reprF64 (q : ℚ) : Prop := float64frombits (float64bits q) = some q

/-- The structural side condition the cache operations maintain: the last
valid slot index stays below the stored array's length. -/
def CacheLen : Option SumCache → Prop
  | none => True
  | some c => c.valid < (c.sums.length : ℤ)

/-! # Theorems -/

/-! ## Shuffle (claim C9) -/

theorem lswap_length (l : List Cent) (i j : ℕ) : (lswap l i j).length = l.length := by
  simp [lswap]

theorem getD_cons_perm :
    ∀ (t : List Cent) (j : ℕ) (x : Cent), j < t.length →
      (t.getD j default :: t.set j x).Perm (x :: t) := by
  intro t
  induction t with
  | nil => intro j x h; simp at h
  | cons y t ih =>
    intro j x h
    cases j with
    | zero => simpa using List.Perm.swap x y t
    | succ m =>
      have hm : m < t.length := by simpa using h
      have h1 : (t.getD m default :: y :: t.set m x).Perm
          (y :: t.getD m default :: t.set m x) := List.Perm.swap y _ _
      have h2 : (y :: t.getD m default :: t.set m x).Perm (y :: x :: t) :=
        (ih m x hm).cons y
      have h3 : (y :: x :: t).Perm (x :: y :: t) := List.Perm.swap x y t
      exact (h1.trans h2).trans h3

theorem lswap_perm :
    ∀ (l : List Cent) (i j : ℕ), i < l.length → j < l.length →
      (lswap l i j).Perm l := by
  intro l
  induction l with
  | nil => intro i j hi _; simp at hi
  | cons x t ih =>
    intro i j hi hj
    cases i with
    | zero =>
      cases j with
      | zero => simp [lswap]
      | succ m =>
        have hm : m < t.length := by simpa using hj
        have : lswap (x :: t) 0 (m + 1) = t.getD m default :: t.set m x := by
          simp [lswap]
        rw [this]
        exact getD_cons_perm t m x hm
    | succ k =>
      cases j with
      | zero =>
        have hk : k < t.length := by simpa using hi
        have : lswap (x :: t) (k + 1) 0 = t.getD k default :: t.set k x := by
          simp [lswap]
        rw [this]
        exact getD_cons_perm t k x hk
      | succ m =>
        have : lswap (x :: t) (k + 1) (m + 1) = x :: lswap t k m := by
          simp [lswap]
        rw [this]
        exact (ih k m (by simpa using hi) (by simpa using hj)).cons x

theorem shuffleGo_perm (rng : RNG) :
    ∀ (i : ℕ) (l : List Cent) (pos : ℕ), i < l.length →
      ((shuffleGo rng i l pos).1).Perm l := by
  intro i
  induction i with
  | zero => intro l pos _; simp [shuffleGo]
  | succ n ih =>
    intro l pos h
    cases n with
    | zero => simp [shuffleGo]
    | succ m =>
      have hj : rngIntn rng pos (m + 3) < l.length := by
        have : rngIntn rng pos (m + 3) < m + 3 := Nat.mod_lt _ (by omega)
        omega
      have h2 : m + 1 < (lswap l (m + 2) (rngIntn rng pos (m + 3))).length := by
        rw [lswap_length]; omega
      have he : (shuffleGo rng (m + 2) l pos).1
          = (shuffleGo rng (m + 1) (lswap l (m + 2) (rngIntn rng pos (m + 3))) (pos + 1)).1 := by
        simp [shuffleGo]
      rw [he]
      exact (ih _ _ h2).trans (lswap_perm l _ _ h hj)

theorem shuffle_perm (rng : RNG) (l : List Cent) (pos : ℕ) :
    ((shuffle rng l pos).1).Perm l := by
  unfold shuffle
  rcases l with _ | ⟨c, t⟩
  · simp [shuffleGo]
  · exact shuffleGo_perm rng _ _ pos (by simp)

theorem shuffle_pair (rng : RNG) (a b : Cent) (pos : ℕ) :
    shuffle rng [a, b] pos = ([a, b], pos) := by
  simp [shuffle, shuffleGo]

/-- C9, counterexample.  The code's shuffle (`for i := len(means)-1; i > 1;
i--`) is not the standard Fisher–Yates the claim describes: on a two-element
array it never swaps, while the spec's shuffle, fed the same RNG draws
(`Intn` returning 0), does. -/
theorem C9_counterexample :
    (shuffle ⟨fun _ => 0, fun _ => 0⟩ [⟨some 1, 1⟩, ⟨some 2, 2⟩] 0).1
        = [⟨some 1, 1⟩, ⟨some 2, 2⟩]
      ∧ (specFisherYates ⟨fun _ => 0, fun _ => 0⟩ [⟨some 1, 1⟩, ⟨some 2, 2⟩] 0).1
        = [⟨some 2, 2⟩, ⟨some 1, 1⟩]
      ∧ ([⟨some 1, 1⟩, ⟨some 2, 2⟩] : List Cent) ≠ [⟨some 2, 2⟩, ⟨some 1, 1⟩] := by
  refine ⟨?_, ?_, by decide⟩
  · simp [shuffle, shuffleGo]
  · simp [specFisherYates, specFYGo, lswap, rngIntn]

/-- C9, amended: the shuffle used by `Merge` and `Compress` runs `i` from
`len−1` down to 2 only (skipping `i = 1`), so it permutes the centroid
array — every output is a rearrangement of the input — but a two-element
array always comes out in its original order, for every RNG. -/
theorem C9_amended_shuffle (rng : RNG) (l : List Cent) (a b : Cent) (pos : ℕ) :
    ((shuffle rng l pos).1).Perm l ∧ shuffle rng [a, b] pos = ([a, b], pos) :=
  ⟨shuffle_perm rng l pos, shuffle_pair rng a b pos⟩

/-! ## Sortedness machinery for the summary -/

theorem fLe_some {a b : ℚ} : fLe (some a) (some b) = true ↔ a ≤ b := by
  simp [fLe]

theorem fLt_some {a b : ℚ} : fLt (some a) (some b) = true ↔ a < b := by
  simp [fLt]

theorem fLe_isSome {x y : F} (h : fLe x y = true) : x.isSome ∧ y.isSome := by
  cases x <;> cases y <;> simp_all [fLe]

theorem fLt_isSome {x y : F} (h : fLt x y = true) : x.isSome ∧ y.isSome := by
  cases x <;> cases y <;> simp_all [fLt]

theorem leF_trans {x y z : Cent} (h1 : leF x y) (h2 : leF y z) : leF x z := by
  unfold leF at *
  rcases x with ⟨mx, cx⟩; rcases y with ⟨my, cy⟩; rcases z with ⟨mz, cz⟩
  cases mx with
  | none => simp [fLe] at h1
  | some a =>
    cases my with
    | none => simp [fLe] at h1
    | some b =>
      cases mz with
      | none => simp [fLe] at h2
      | some c =>
        exact fLe_some.2 (le_trans (fLe_some.1 h1) (fLe_some.1 h2))

instance : IsTrans Cent leF := ⟨fun _ _ _ => leF_trans⟩

/-- `sortedB` coincides with `Chain'` of the mean order. -/
theorem sortedB_iff_chain' : ∀ {l : List Cent}, sortedB l = true ↔ l.Chain' leF
  | [] => by simp [sortedB]
  | [a] => by simp [sortedB]
  | a :: b :: t => by
    rw [List.chain'_cons, ← sortedB_iff_chain']
    simp [sortedB, leF]

/-- `sortedB` coincides with pairwise sortedness (via transitivity). -/
theorem sortedB_iff_pairwise {l : List Cent} :
    sortedB l = true ↔ l.Pairwise leF := by
  rw [sortedB_iff_chain', List.chain'_iff_pairwise]

/-- Where `findInsertionIndex` lands is at most the length. -/
theorem findInsertionIndex_le (x : F) :
    ∀ (s : List Cent), findInsertionIndex s x ≤ s.length
  | [] => by simp [findInsertionIndex]
  | c :: rest => by
    unfold findInsertionIndex
    by_cases h : fLt x c.mean <;>
      simp [h, Nat.succ_le_succ (findInsertionIndex_le x rest)]

theorem findIndex_le (x : F) : ∀ (s : List Cent), findIndex s x ≤ s.length
  | [] => by simp [findIndex]
  | c :: rest => by
    unfold findIndex
    by_cases h : fLe x c.mean <;> simp [h, Nat.succ_le_succ (findIndex_le x rest)]

/-- Inserting a non-NaN key at `findInsertionIndex` preserves pairwise
sortedness of a NaN-free summary. -/
theorem insert_sorted (q : ℚ) (v : ℕ) :
    ∀ (s : List Cent), s.Pairwise leF → (∀ c ∈ s, c.mean.isSome) →
      (s.insertIdx (findInsertionIndex s (some q)) ⟨some q, v⟩).Pairwise leF
  | [], _, _ => by simp [findInsertionIndex]
  | c :: rest, hs, hall => by
    unfold findInsertionIndex
    rcases List.pairwise_cons.1 hs with ⟨hcrest, hrest⟩
    obtain ⟨cm, hcm⟩ := Option.isSome_iff_exists.1 (hall c (by simp))
    by_cases h : fLt (some q) c.mean
    · have hqc : leF (⟨some q, v⟩ : Cent) c := by
        show fLe (some q) c.mean = true
        rw [hcm] at h ⊢
        exact fLe_some.2 (le_of_lt (fLt_some.1 h))
      simp only [if_pos h, List.insertIdx_zero]
      refine List.pairwise_cons.2 ⟨?_, hs⟩
      intro b hb
      rcases List.mem_cons.1 hb with hb | hb
      · subst hb; exact hqc
      · exact leF_trans hqc (hcrest b hb)
    · have hcq : leF c (⟨some q, v⟩ : Cent) := by
        show fLe c.mean (some q) = true
        rw [hcm] at h ⊢
        exact fLe_some.2 (le_of_not_lt (fun hlt => h (fLt_some.2 hlt)))
      simp only [if_neg h, List.insertIdx_succ_cons]
      refine List.pairwise_cons.2 ⟨?_, ?_⟩
      · intro b hb
        have hmem := (List.perm_insertIdx (⟨some q, v⟩ : Cent) rest
          (findInsertionIndex_le (some q) rest)).mem_iff.1 hb
        rcases List.mem_cons.1 hmem with hb' | hb'
        · subst hb'; exact hcq
        · exact hcrest b hb'
      · exact insert_sorted q v rest hrest (fun d hd => hall d (by simp [hd]))

theorem fLe_of_fLt {x y : F} (h : fLt x y = true) : fLe x y = true := by
  cases x <;> cases y <;> simp_all [fLt, fLe]; exact le_of_lt h

theorem fLe_of_not_fLt {x y : F} (hx : x.isSome) (hy : y.isSome)
    (h : ¬ fLt x y = true) : fLe y x = true := by
  cases x <;> cases y <;> simp_all [fLt, fLe]

theorem bubbleRight_perm (a : Cent) : ∀ l, (bubbleRight a l).Perm (a :: l)
  | [] => .refl _
  | b :: t => by
    unfold bubbleRight
    by_cases h : fLt b.mean a.mean
    · simp only [if_pos h]
      exact ((bubbleRight_perm a t).cons b).trans (List.Perm.swap a b t)
    · simp [if_neg h]

theorem bubbleLeftRev_perm (a : Cent) : ∀ l, (bubbleLeftRev a l).Perm (a :: l)
  | [] => .refl _
  | b :: t => by
    unfold bubbleLeftRev
    by_cases h : fLt a.mean b.mean
    · simp only [if_pos h]
      exact ((bubbleLeftRev_perm a t).cons b).trans (List.Perm.swap a b t)
    · simp [if_neg h]

theorem bubbleRight_sorted (a : Cent) (ha : a.mean.isSome) :
    ∀ l, l.Pairwise leF → (∀ c ∈ l, c.mean.isSome) →
      (bubbleRight a l).Pairwise leF
  | [], _, _ => by simp [bubbleRight]
  | b :: t, hs, hall => by
    unfold bubbleRight
    rcases List.pairwise_cons.1 hs with ⟨hbt, ht⟩
    by_cases h : fLt b.mean a.mean
    · simp only [if_pos h]
      refine List.pairwise_cons.2
        ⟨?_, bubbleRight_sorted a ha t ht (fun x hx => hall x (by simp [hx]))⟩
      intro x hx
      rcases List.mem_cons.1 ((bubbleRight_perm a t).mem_iff.1 hx) with hx | hx
      · subst hx; exact fLe_of_fLt h
      · exact hbt x hx
    · simp only [if_neg h]
      have hab : leF a b := fLe_of_not_fLt (hall b (by simp)) ha h
      refine List.pairwise_cons.2 ⟨?_, hs⟩
      intro x hx
      rcases List.mem_cons.1 hx with hx | hx
      · subst hx; exact hab
      · exact leF_trans hab (hbt x hx)

theorem bubbleLeftRev_sorted (a : Cent) (ha : a.mean.isSome) :
    ∀ rp, (rp.reverse).Pairwise leF → (∀ c ∈ rp, c.mean.isSome) →
      ((bubbleLeftRev a rp).reverse).Pairwise leF
  | [], _, _ => by simp [bubbleLeftRev]
  | b :: t, hs, hall => by
    unfold bubbleLeftRev
    have hs0 : ((b :: t).reverse).Pairwise leF := hs
    rw [List.reverse_cons, List.pairwise_append] at hs
    rcases hs with ⟨htrev, _, hjun⟩
    by_cases h : fLt a.mean b.mean
    · simp only [if_pos h, List.reverse_cons]
      rw [List.pairwise_append]
      refine ⟨bubbleLeftRev_sorted a ha t htrev
          (fun x hx => hall x (by simp [hx])), by simp, ?_⟩
      intro x hx y hy
      rcases List.mem_singleton.1 hy with rfl
      rcases List.mem_cons.1 ((bubbleLeftRev_perm a t).mem_iff.1
        (List.mem_reverse.1 hx)) with hx | hx
      · subst hx; exact fLe_of_fLt h
      · exact hjun x (List.mem_reverse.2 hx) y (by simp)
    · simp only [if_neg h, List.reverse_cons]
      rw [List.pairwise_append]
      have hba : leF b a := fLe_of_not_fLt ha (hall b (by simp)) h
      refine ⟨by simpa using hs0, by simp, ?_⟩
      intro x hx y hy
      rcases List.mem_singleton.1 hy with rfl
      rcases List.mem_append.1 hx with hx | hx
      · exact leF_trans (hjun x hx b (by simp)) hba
      · rcases List.mem_singleton.1 hx with rfl; exact hba

/-! positional helpers for the `setAt` decomposition -/

theorem getDApp : ∀ (pre l : List Cent) (d : Cent),
    (pre ++ l).getD pre.length d = l.headD d
  | [], l, d => by cases l <;> simp
  | p :: pre, l, d => by simpa using getDApp pre l d

theorem takeApp : ∀ (pre l : List Cent), (pre ++ l).take pre.length = pre
  | [], _ => by simp
  | p :: pre, l => by simpa using takeApp pre l

theorem dropApp1 : ∀ (pre l : List Cent),
    (pre ++ l).drop (pre.length + 1) = l.tail
  | [], l => by cases l <;> simp
  | p :: pre, l => by simpa using dropApp1 pre l

theorem setApp : ∀ (pre l : List Cent) (x y : Cent),
    (pre ++ x :: l).set pre.length y = pre ++ y :: l
  | [], _, _, _ => by simp
  | p :: pre, l, x, y => by simpa using setApp pre l x y

/-- `setAt` at position `|pre|` of `pre ++ old :: suf`: overwrite, bubble the
new element through `suf`, then bubble whatever sits at the position through
`pre`. -/
theorem setAt_decomp (pre suf : List Cent) (old : Cent) (nm : F) (c : ℕ) :
    setAt (pre ++ old :: suf) pre.length nm c =
      (bubbleLeftRev ((bubbleRight ⟨nm, c⟩ suf).headD ⟨nm, c⟩) pre.reverse).reverse
        ++ (bubbleRight ⟨nm, c⟩ suf).tail := by
  simp only [setAt, setApp, takeApp, getDApp, dropApp1, List.headD_cons,
    List.tail_cons]

/-- The key restoration property: overwriting a slot of a sorted NaN-free
summary with a non-NaN mean and re-bubbling yields a sorted summary that is
a permutation of the new centroid and the remaining ones. -/
theorem setAt_sorted_perm (pre suf : List Cent) (old : Cent) (q : ℚ) (c : ℕ)
    (hs : (pre ++ old :: suf).Pairwise leF)
    (hall : ∀ x ∈ pre ++ old :: suf, x.mean.isSome) :
    (setAt (pre ++ old :: suf) pre.length (some q) c).Pairwise leF ∧
    (setAt (pre ++ old :: suf) pre.length (some q) c).Perm
      (⟨some q, c⟩ :: (pre ++ suf)) := by
  have hpre : pre.Pairwise leF := (List.pairwise_append.1 hs).1
  have hos : (old :: suf).Pairwise leF := (List.pairwise_append.1 hs).2.1
  have hjun : ∀ x ∈ pre, ∀ y ∈ old :: suf, leF x y := (List.pairwise_append.1 hs).2.2
  have hsuf : suf.Pairwise leF := (List.pairwise_cons.1 hos).2
  have hallpre : ∀ x ∈ pre, x.mean.isSome := fun x hx => hall x (by simp [hx])
  have hallsuf : ∀ x ∈ suf, x.mean.isSome := fun x hx => hall x (by simp [hx])
  have hnew : (⟨some q, c⟩ : Cent).mean.isSome := by simp
  rw [setAt_decomp]
  -- the "adjustLeft is a straight insertion into pre" facts
  have hLsorted : ∀ (a : Cent), a.mean.isSome →
      ((bubbleLeftRev a pre.reverse).reverse).Pairwise leF := fun a hA =>
    bubbleLeftRev_sorted a hA pre.reverse
      (by rw [List.reverse_reverse]; exact hpre)
      (fun x hx => hallpre x (List.mem_reverse.1 hx))
  have hLperm : ∀ (a : Cent),
      ((bubbleLeftRev a pre.reverse).reverse).Perm (a :: pre) := fun a =>
    (List.reverse_perm _).trans ((bubbleLeftRev_perm a pre.reverse).trans
      ((List.Perm.cons a (List.reverse_perm pre))))
  have hLmem : ∀ (a x : Cent), x ∈ (bubbleLeftRev a pre.reverse).reverse →
      x = a ∨ x ∈ pre := fun a x hx => by
    rcases List.mem_cons.1 ((hLperm a).mem_iff.1 hx) with hx | hx
    · exact Or.inl hx
    · exact Or.inr hx
  rcases suf with _ | ⟨b, t⟩
  · -- suffix empty: bubbleRight is [new]
    simp only [bubbleRight, List.headD_cons, List.tail_cons, List.append_nil]
    exact ⟨hLsorted _ hnew, (hLperm _).trans (by simp)⟩
  · have hallt : ∀ x ∈ t, x.mean.isSome := fun x hx => hallsuf x (by simp [hx])
    have hbt : ∀ y ∈ t, leF b y := (List.pairwise_cons.1 hsuf).1
    have ht : t.Pairwise leF := (List.pairwise_cons.1 hsuf).2
    by_cases h : fLt b.mean (some q)
    · -- the new element bubbles right past b
      simp only [bubbleRight, if_pos h, List.headD_cons, List.tail_cons]
      -- adjustLeft is a no-op: b is at least every element of pre
      have hnoop : bubbleLeftRev b pre.reverse = b :: pre.reverse := by
        cases hrev : pre.reverse with
        | nil => simp [bubbleLeftRev]
        | cons x rp =>
          have hxpre : x ∈ pre := by
            rw [← List.mem_reverse, hrev]; simp
          have hxb : leF x b := hjun x hxpre b (by simp)
          have : ¬ fLt b.mean x.mean = true := by
            rcases Option.isSome_iff_exists.1 (hallpre x hxpre) with ⟨xm, hxm⟩
            rcases Option.isSome_iff_exists.1 (hallsuf b (by simp)) with ⟨bm, hbm⟩
            unfold leF at hxb
            rw [hxm, hbm] at hxb ⊢
            simp only [fLt_some, decide_eq_true_eq]
            exact not_lt.2 (fLe_some.1 hxb)
          simp [bubbleLeftRev, this]
      rw [hnoop, List.reverse_cons, List.reverse_reverse]
      constructor
      · rw [List.append_assoc, List.pairwise_append]
        refine ⟨hpre, ?_, ?_⟩
        · -- b :: bubbleRight new t is sorted
          simp only [List.singleton_append]
          refine List.pairwise_cons.2
            ⟨?_, bubbleRight_sorted _ hnew t ht hallt⟩
          intro x hx
          rcases List.mem_cons.1 ((bubbleRight_perm _ t).mem_iff.1 hx) with hx | hx
          · subst hx; exact fLe_of_fLt h
          · exact hbt x hx
        · intro x hx y hy
          simp only [List.singleton_append] at hy
          rcases List.mem_cons.1 hy with rfl | hy
          · exact hjun x hx y (by simp)
          · rcases List.mem_cons.1 ((bubbleRight_perm _ t).mem_iff.1 hy) with rfl | hy
            · exact leF_trans (hjun x hx b (by simp)) (fLe_of_fLt h)
            · exact hjun x hx y (by simp [hy])
      · -- permutation bookkeeping
        rw [List.append_assoc]
        simp only [List.singleton_append]
        have h1 : (pre ++ b :: bubbleRight ⟨some q, c⟩ t).Perm
            (pre ++ b :: ⟨some q, c⟩ :: t) :=
          List.Perm.append_left pre ((bubbleRight_perm _ t).cons b)
        refine h1.trans ?_
        have h2 : ((pre ++ [b]) ++ ⟨some q, c⟩ :: t).Perm
            (⟨some q, c⟩ :: ((pre ++ [b]) ++ t)) := List.perm_middle
        simpa using h2
    · -- the new element stays put; adjustLeft inserts it into pre
      simp only [bubbleRight, if_neg h, List.headD_cons, List.tail_cons]
      constructor
      · rw [List.pairwise_append]
        refine ⟨hLsorted _ hnew, hsuf, ?_⟩
        intro x hx y hy
        have hnb : leF (⟨some q, c⟩ : Cent) b :=
          fLe_of_not_fLt (hallsuf b (by simp)) hnew h
        have hysuf : y ∈ old :: b :: t := by
          rcases List.mem_cons.1 hy with h1 | h1
          · simp [h1]
          · simp [h1]
        have hnewy : leF (⟨some q, c⟩ : Cent) y := by
          rcases List.mem_cons.1 hy with h1 | h1
          · rw [h1]; exact hnb
          · exact leF_trans hnb (hbt y h1)
        rcases hLmem _ x hx with rfl | hx
        · exact hnewy
        · exact hjun x hx y hysuf
      · exact ((hLperm _).append_right (b :: t)).trans (by simp)

/-! ## The valid-sketch invariant and the insertion core -/

theorem IT_of_invB {t : TD} (h : invB t = true) : IT t := by
  unfold invB at h
  simp only [Bool.and_eq_true, beq_iff_eq] at h
  refine ⟨sortedB_iff_pairwise.1 h.1.1.1, ?_, ?_, h.2⟩
  · intro c hc
    exact (List.all_eq_true.1 h.1.1.2) c hc
  · intro c hc
    simpa using (List.all_eq_true.1 h.1.2) c hc

theorem invB_of_IT {t : TD} (h : IT t) : invB t = true := by
  unfold invB
  simp only [Bool.and_eq_true, beq_iff_eq]
  refine ⟨⟨⟨sortedB_iff_pairwise.2 h.sorted, ?_⟩, ?_⟩, h.total⟩
  · exact List.all_eq_true.2 fun c hc => h.allSome c hc
  · exact List.all_eq_true.2 fun c hc => by simpa using h.posCnt c hc

theorem totalCnt_perm {l1 l2 : List Cent} (h : l1.Perm l2) :
    totalCnt l1 = totalCnt l2 := (h.map Cent.cnt).sum_eq

theorem totalCnt_cons (c : Cent) (l : List Cent) :
    totalCnt (c :: l) = c.cnt + totalCnt l := by simp [totalCnt]

theorem totalCnt_append (l1 l2 : List Cent) :
    totalCnt (l1 ++ l2) = totalCnt l1 + totalCnt l2 := by simp [totalCnt]

/-- The weighted average of two non-NaN points with positive total weight is
non-NaN. -/
theorem weightedAverage_some (a b : ℚ) (w1 w2 : ℚ) (hw : w1 + w2 ≠ 0) :
    (weightedAverage (some a) w1 (some b) w2).isSome := by
  unfold weightedAverage
  have hw' : w2 + w1 ≠ 0 := by rw [add_comm]; exact hw
  by_cases h : fLt (some b) (some a) <;>
    simp [h, fAdd, fDiv, fMul, hw, hw']

/-- `findNeighbors` returns positions within the summary. -/
theorem fnGo_le (s : List Cent) (value : F) :
    ∀ (fuel neighbor start : ℕ) (minD : F), start ≤ sLen s →
      (fnGo s value fuel neighbor start minD).1 ≤ sLen s ∧
      (fnGo s value fuel neighbor start minD).2 ≤ sLen s := by
  intro fuel
  induction fuel with
  | zero =>
    intro neighbor start minD hstart
    simp only [fnGo]
    exact ⟨hstart, le_refl _⟩
  | succ f ih =>
    intro neighbor start minD hstart
    simp only [fnGo]
    by_cases h : neighbor < sLen s
    · simp only [if_pos h]
      by_cases h1 : fLt (fAbs (fSub (mAt s neighbor) value)) minD
      · simp only [if_pos h1]
        exact ih (neighbor + 1) neighbor _ (le_of_lt h)
      · simp only [if_neg h1]
        by_cases h2 : fLt minD (fAbs (fSub (mAt s neighbor) value))
        · simp [if_pos h2, hstart, le_of_lt h]
        · simp only [if_neg h2]
          exact ih (neighbor + 1) start _ hstart
    · simp [if_neg h, hstart]

theorem findNeighbors_le (s : List Cent) (start : ℕ) (value : F)
    (h : start ≤ sLen s) :
    (findNeighbors s start value).1 ≤ sLen s ∧
    (findNeighbors s start value).2 ≤ sLen s :=
  fnGo_le s value (sLen s - start) start start _ h

/-- The reservoir sample picks either the sentinel `len` or a real index. -/
theorem cmcGo_range (rng : RNG) (N δ w : ℚ) (nIs1 : Bool) (s : List Cent) :
    ∀ (fuel neighbor : ℕ) (sum n : ℚ) (closest pos : ℕ),
      (closest = sLen s ∨ closest < sLen s) → neighbor + fuel ≤ sLen s →
      ((cmcGo rng N δ w nIs1 s fuel neighbor sum n closest pos).1 = sLen s ∨
       (cmcGo rng N δ w nIs1 s fuel neighbor sum n closest pos).1 < sLen s) := by
  intro fuel
  induction fuel with
  | zero => intro neighbor sum n closest pos hc _; simpa [cmcGo] using hc
  | succ fuel ih =>
    intro neighbor sum n closest pos hc hb
    rw [cmcGo]
    by_cases h1 : (cAt s neighbor : ℚ) + w ≤
        4 * N * (if nIs1 then 1/2 else (sum + ((cAt s neighbor : ℚ) - 1) / 2) / (N - 1)) *
          (1 - (if nIs1 then 1/2 else (sum + ((cAt s neighbor : ℚ) - 1) / 2) / (N - 1))) / δ
    · simp only [if_pos h1]
      by_cases h2 : rng.fl pos < 1 / (n + 1)
      · simp only [if_pos h2]
        exact ih _ _ _ _ _ (Or.inr (by omega)) (by omega)
      · simp only [if_neg h2]
        exact ih _ _ _ _ _ hc (by omega)
    · simp only [if_neg h1]
      exact ih _ _ _ _ _ hc (by omega)

theorem chooseMergeCandidate_range (rng : RNG) (t : TD) (b e w : ℕ)
    (hb : b ≤ sLen t.cents) (he : e ≤ sLen t.cents) :
    (chooseMergeCandidate rng t b e w).1 = sLen t.cents ∨
    (chooseMergeCandidate rng t b e w).1 < sLen t.cents := by
  unfold chooseMergeCandidate
  exact cmcGo_range _ _ _ _ _ _ _ _ _ _ _ _ (Or.inl rfl) (by omega)

/-- The insertion core on valid input: never errors, preserves the
invariant and the compression, and adds exactly `w` to the count. -/
theorem awCore_ok (rng : RNG) (t : TD) (q : ℚ) (w : ℕ) (hw : w ≠ 0) (ht : IT t) :
    (awCore rng t (some q) w).2 = none ∧
    IT (awCore rng t (some q) w).1 ∧
    (awCore rng t (some q) w).1.count = t.count + w ∧
    (awCore rng t (some q) w).1.compression = t.compression := by
  by_cases hlen : sLen t.cents = 0
  · have hnil : t.cents = [] := List.length_eq_zero.1 hlen
    have hcnt0 : t.count = 0 := by
      rw [← ht.total, hnil]; rfl
    have hsa : summaryAdd t.cents (some q) w = ([⟨some q, w⟩], none) := by
      rw [hnil]; simp [summaryAdd, hw, findInsertionIndex]
    unfold awCore
    simp only [if_neg hw, if_pos hlen, hsa]
    refine ⟨by trivial, ⟨?_, ?_, ?_, ?_⟩, by simp [hcnt0], by trivial⟩
    · simp
    · intro c hc; rcases List.mem_singleton.1 hc with rfl; simp
    · intro c hc; rcases List.mem_singleton.1 hc with rfl; simpa using Nat.pos_of_ne_zero hw
    · simp [totalCnt]
  · unfold awCore
    simp only [if_neg hw, if_neg hlen]
    have hb0 : (sFloor t.cents (some q)).toNat ≤ sLen t.cents := by
      unfold sFloor
      have := findIndex_le (some q) t.cents
      unfold sLen
      omega
    set fn := findNeighbors t.cents (sFloor t.cents (some q)).toNat (some q) with hfn
    set cm := chooseMergeCandidate rng t fn.1 fn.2 w with hcmdef
    have hfnle := findNeighbors_le t.cents _ (some q) hb0
    have hrange := chooseMergeCandidate_range rng t fn.1 fn.2 w hfnle.1 hfnle.2
    by_cases hcl : cm.1 = sLen t.cents
    · have hsa : summaryAdd t.cents (some q) w =
          (t.cents.insertIdx (findInsertionIndex t.cents (some q)) ⟨some q, w⟩, none) := by
        simp [summaryAdd, hw]
      simp only [if_pos hcl, hsa]
      have hperm := List.perm_insertIdx (⟨some q, w⟩ : Cent) t.cents
        (findInsertionIndex_le (some q) t.cents)
      refine ⟨by trivial, ⟨?_, ?_, ?_, ?_⟩, by trivial, by trivial⟩
      · exact insert_sorted q w t.cents ht.sorted ht.allSome
      · intro c hc
        rcases List.mem_cons.1 (hperm.mem_iff.1 hc) with rfl | hc
        · simp
        · exact ht.allSome c hc
      · intro c hc
        rcases List.mem_cons.1 (hperm.mem_iff.1 hc) with rfl | hc
        · simpa using Nat.pos_of_ne_zero hw
        · exact ht.posCnt c hc
      · rw [totalCnt_perm hperm, totalCnt_cons, ht.total, Nat.add_comm]
    · have hlt : cm.1 < sLen t.cents := hrange.resolve_left hcl
      have hlt' : cm.1 < t.cents.length := hlt
      simp only [if_neg hcl]
      have hgetD : t.cents.getD cm.1 default = t.cents[cm.1] :=
        List.getD_eq_getElem t.cents default hlt'
      have hmem : t.cents[cm.1] ∈ t.cents := List.getElem_mem hlt'
      obtain ⟨om, hom⟩ := Option.isSome_iff_exists.1 (ht.allSome _ hmem)
      have hcpos : 0 < t.cents[cm.1].cnt := ht.posCnt _ hmem
      have hwsum : (t.cents[cm.1].cnt : ℚ) + (w : ℚ) ≠ 0 := by
        have : (0 : ℚ) < (t.cents[cm.1].cnt : ℚ) + (w : ℚ) := by
          have h1 : (0 : ℚ) < (t.cents[cm.1].cnt : ℚ) := by exact_mod_cast hcpos
          have h2 : (0 : ℚ) ≤ (w : ℚ) := by positivity
          linarith
        exact ne_of_gt this
      obtain ⟨q', hq'⟩ := Option.isSome_iff_exists.1
        (weightedAverage_some om q (t.cents[cm.1].cnt : ℚ) (w : ℚ) hwsum)
      have hmAt : mAt t.cents cm.1 = some om := by
        unfold mAt; rw [hgetD, hom]
      have hcAt : cAt t.cents cm.1 = t.cents[cm.1].cnt := by
        unfold cAt; rw [hgetD]
      have hsplit : t.cents = t.cents.take cm.1 ++ t.cents[cm.1] :: t.cents.drop (cm.1 + 1) := by
        conv_lhs => rw [← List.take_append_drop cm.1 t.cents]
        rw [List.drop_eq_getElem_cons hlt']
      have hplen : (t.cents.take cm.1).length = cm.1 := by
        rw [List.length_take]; omega
      have hwa : weightedAverage (mAt t.cents cm.1) (cAt t.cents cm.1 : ℚ) (some q) (w : ℚ)
          = some q' := by
        rw [hmAt, hcAt, hq']
      have hSP := setAt_sorted_perm (t.cents.take cm.1) (t.cents.drop (cm.1 + 1))
        (t.cents[cm.1]) q' (cAt t.cents cm.1 + w)
        (by rw [← hsplit]; exact ht.sorted)
        (by rw [← hsplit]; exact ht.allSome)
      have hset_eq : setAt t.cents cm.1
            (weightedAverage (mAt t.cents cm.1) (cAt t.cents cm.1 : ℚ) (some q) (w : ℚ))
            (cAt t.cents cm.1 + w)
          = setAt (t.cents.take cm.1 ++ t.cents[cm.1] :: t.cents.drop (cm.1 + 1))
              (t.cents.take cm.1).length (some q') (cAt t.cents cm.1 + w) := by
        rw [hwa, hplen, ← hsplit]
      refine ⟨by trivial, ⟨?_, ?_, ?_, ?_⟩, by trivial, by trivial⟩
      · rw [hset_eq]; exact hSP.1
      · intro c hc
        rw [hset_eq] at hc
        rcases List.mem_cons.1 (hSP.2.mem_iff.1 hc) with rfl | hc
        · simp
        · have : c ∈ t.cents := by
            rcases List.mem_append.1 hc with h1 | h1
            · exact List.mem_of_mem_take h1
            · exact List.mem_of_mem_drop h1
          exact ht.allSome c this
      · intro c hc
        rw [hset_eq] at hc
        rcases List.mem_cons.1 (hSP.2.mem_iff.1 hc) with rfl | hc
        · simp only []
          omega
        · have : c ∈ t.cents := by
            rcases List.mem_append.1 hc with h1 | h1
            · exact List.mem_of_mem_take h1
            · exact List.mem_of_mem_drop h1
          exact ht.posCnt c this
      · rw [hset_eq, totalCnt_perm hSP.2, totalCnt_cons, totalCnt_append]
        have htot : totalCnt t.cents = totalCnt (t.cents.take cm.1)
            + t.cents[cm.1].cnt + totalCnt (t.cents.drop (cm.1 + 1)) := by
          conv_lhs => rw [hsplit]
          rw [totalCnt_append, totalCnt_cons]
          ring
        have := ht.total
        simp only [hcAt]
        omega

theorem replayProps_of_compressProps (fuel : ℕ) (hP : CompressProps fuel) :
    ReplayProps fuel := by
  intro rng l
  induction l with
  | nil =>
    intro t ht _
    exact ⟨ht, rfl, fun _ => by simp [replayGo, replayWith, totalCnt]⟩
  | cons c rest ih =>
    intro t ht hl
    obtain ⟨hsome, hcnt⟩ := hl c (by simp)
    obtain ⟨qq, hqq⟩ := Option.isSome_iff_exists.1 hsome
    have hcore := awCore_ok rng t qq c.cnt hcnt ht
    rw [← hqq] at hcore
    have hrest : ∀ x ∈ rest, x.mean.isSome ∧ x.cnt ≠ 0 :=
      fun x hx => hl x (by simp [hx])
    rcases hr : awCore rng t c.mean c.cnt with ⟨t1, e1⟩
    rw [hr] at hcore
    obtain ⟨he1, hIT1, hcnt1, hcp1⟩ := hcore
    subst he1
    have hstep : replayGo rng fuel (c :: rest) t =
        (if compressTrigger t1 then
          match compressFuel rng fuel t1 with
          | (t', some e) => (t', some e)
          | (t', none) => replayGo rng fuel rest t'
         else replayGo rng fuel rest t1) := by
      show replayWith (awStep (compressFuel rng fuel) rng) (c :: rest) t = _
      rw [replayWith]
      unfold awStep
      rw [hr]
      by_cases htr : compressTrigger t1
      · simp only [if_pos htr]
        rcases compressFuel rng fuel t1 with ⟨t', e⟩
        cases e <;> rfl
      · simp only [if_neg htr]
        rfl
    rw [hstep]
    by_cases htr : compressTrigger t1
    · simp only [if_pos htr]
      have hcp := hP rng t1 hIT1
      rcases h2 : compressFuel rng fuel t1 with ⟨t', e⟩
      rw [h2] at hcp
      cases e with
      | some err =>
        refine ⟨hcp.1, ?_, ?_⟩
        · rw [hcp.2.1, hcp1]
        · intro hok; exact absurd hok (by simp)
      | none =>
        have hih := ih t' hcp.1 hrest
        refine ⟨hih.1, ?_, ?_⟩
        · rw [hih.2.1, hcp.2.1, hcp1]
        · intro hok
          rw [hih.2.2 hok, hcp.2.2 rfl, hcnt1, totalCnt_cons]
          ring
    · simp only [if_neg htr]
      have hih := ih t1 hIT1 hrest
      refine ⟨hih.1, ?_, ?_⟩
      · rw [hih.2.1, hcp1]
      · intro hok
        rw [hih.2.2 hok, hcnt1, totalCnt_cons]
        ring

theorem compressProps_all : ∀ fuel, CompressProps fuel := by
  intro fuel
  induction fuel with
  | zero =>
    intro rng t ht
    simp only [compressFuel]
    by_cases h : sLen t.cents ≤ 1
    · simp [if_pos h, ht]
    · simp only [if_neg h]
      refine ⟨ht, ?_, ?_⟩ <;> simp
  | succ f ih =>
    intro rng t ht
    have hQ := replayProps_of_compressProps f ih
    simp only [compressFuel]
    by_cases h : sLen t.cents ≤ 1
    · simp [if_pos h, ht]
    · simp only [if_neg h]
      have hperm := shuffle_perm rng t.cents t.pos
      have ht0 : IT { t with cents := [], count := 0, pos := (shuffle rng t.cents t.pos).2 } := by
        refine ⟨?_, ?_, ?_, ?_⟩ <;> simp [totalCnt]
      have hl : ∀ c ∈ (shuffle rng t.cents t.pos).1, c.mean.isSome ∧ c.cnt ≠ 0 := by
        intro c hc
        have hmem := hperm.mem_iff.1 hc
        exact ⟨ht.allSome c hmem, Nat.pos_iff_ne_zero.1 (ht.posCnt c hmem)⟩
      have hRP := hQ rng (shuffle rng t.cents t.pos).1
        { t with cents := [], count := 0, pos := (shuffle rng t.cents t.pos).2 } ht0 hl
      unfold replayGo at hRP
      refine ⟨hRP.1, hRP.2.1, ?_⟩
      intro hok
      rw [hRP.2.2 hok, totalCnt_perm hperm, ht.total]
      simp

/-- `AddWeighted` on a valid digest with valid input: the invariant and the
compression survive, and a successful call adds exactly `w`. -/
theorem addWeighted_props (rng : RNG) (fuel : ℕ) (t : TD) (q : ℚ) (w : ℕ)
    (hw : w ≠ 0) (ht : IT t) :
    IT (addWeighted rng fuel t (some q) w).1 ∧
    (addWeighted rng fuel t (some q) w).1.compression = t.compression ∧
    ((addWeighted rng fuel t (some q) w).2 = none →
      (addWeighted rng fuel t (some q) w).1.count = t.count + w) := by
  have hcore := awCore_ok rng t q w hw ht
  rcases hr : awCore rng t (some q) w with ⟨t1, e1⟩
  rw [hr] at hcore
  have he1 : e1 = none := hcore.1
  subst he1
  have hIT1 : IT t1 := hcore.2.1
  have hcnt1 : t1.count = t.count + w := hcore.2.2.1
  have hcp1 : t1.compression = t.compression := hcore.2.2.2
  have hr' : awCore rng t (Cent.mk (some q) w).mean (Cent.mk (some q) w).cnt
      = (t1, none) := hr
  have hstep : addWeighted rng fuel t (some q) w =
      (if compressTrigger t1 then compressFuel rng fuel t1 else (t1, none)) := by
    unfold addWeighted awStep
    rw [hr']
  rw [hstep]
  by_cases htr : compressTrigger t1
  · simp only [if_pos htr]
    have hcp := compressProps_all fuel rng t1 hIT1
    refine ⟨hcp.1, by rw [hcp.2.1, hcp1], ?_⟩
    intro hok
    rw [hcp.2.2 hok, hcnt1]
  · simp only [if_neg htr]
    exact ⟨hIT1, hcp1, fun _ => hcnt1⟩

/-! ## Compress (claim C6) and Merge (claim C7) -/

/-- C6: on a valid digest, `Compress()` leaves the externally observed
total weight `Count()` unchanged whenever it returns without error, and on
a digest with at most one centroid it changes nothing at all. -/
theorem C6_compress_count (rng : RNG) (fuel : ℕ) (t : TD) (ht : IT t) :
    ((compressFuel rng fuel t).2 = none →
      (compressFuel rng fuel t).1.count = t.count) ∧
    (sLen t.cents ≤ 1 → compressFuel rng fuel t = (t, none)) := by
  refine ⟨(compressProps_all fuel rng t ht).2.2, ?_⟩
  intro h
  cases fuel <;> simp [compressFuel, if_pos h]

set_option maxHeartbeats 4000000 in
theorem C6_compress_count_witness :
    (compressFuel rng0 5 wC6).2 = none ∧
    (compressFuel rng0 5 wC6).1.count = wC6.count ∧
    wC6.count = 3 ∧
    compressFuel rng0 5 ⟨[⟨some 4, 9⟩], 100, 9, 0⟩ = (⟨[⟨some 4, 9⟩], 100, 9, 0⟩, none) := by
  have h := C6_compress_count rng0 5 wC6 (IT_of_invB (by decide))
  have hcore1 : awCore rng0 ⟨[], 100, 0, 0⟩ (some 0) 1 =
      (⟨[⟨some 0, 1⟩], 100, 1, 0⟩, none) := by
    norm_num [awCore, sLen, summaryAdd, findInsertionIndex]
  have hcore2 : awCore rng0 ⟨[⟨some 0, 1⟩], 100, 1, 0⟩ (some 1) 2 =
      (⟨[⟨some 0, 1⟩, ⟨some 1, 2⟩], 100, 3, 0⟩, none) := by
    have hb : (sFloor [⟨some 0, 1⟩] (some 1)).toNat = 0 := by decide
    have hf : findNeighbors [⟨some 0, 1⟩] 0 (some 1) = (0, 1) := by
      norm_num [findNeighbors, fnGo, sLen, mAt, fAbs, fSub, fLt, maxFloat64]
    have hc : chooseMergeCandidate rng0 ⟨[⟨some 0, 1⟩], 100, 1, 0⟩ 0 1 2 = (1, 0) := by
      norm_num [chooseMergeCandidate, cmcGo, cAt, headSum, sLen, rng0]
    rw [awCore, hb]
    simp only [hf, hc]
    norm_num [summaryAdd, findInsertionIndex, fLt, sLen]
  have h1 : compressFuel rng0 5 wC6 = (wC6, none) := by
    show compressFuel rng0 (4 + 1) wC6 = _
    rw [compressFuel]
    rw [if_neg (by decide : ¬ sLen wC6.cents ≤ 1)]
    have hsh : shuffle rng0 wC6.cents wC6.pos = (wC6.cents, 0) := rfl
    simp only [hsh]
    show replayWith (awStep (compressFuel rng0 4) rng0)
      [⟨some 0, 1⟩, ⟨some 1, 2⟩] ⟨[], 100, 0, 0⟩ = _
    rw [replayWith]
    simp only [awStep, hcore1]
    rw [if_neg (by norm_num [compressTrigger, sLen] :
      ¬ compressTrigger ⟨[⟨some 0, 1⟩], 100, 1, 0⟩)]
    show replayWith (awStep (compressFuel rng0 4) rng0)
      [⟨some 1, 2⟩] ⟨[⟨some 0, 1⟩], 100, 1, 0⟩ = _
    rw [replayWith]
    simp only [awStep, hcore2]
    rw [if_neg (by norm_num [compressTrigger, sLen] :
      ¬ compressTrigger ⟨[⟨some 0, 1⟩, ⟨some 1, 2⟩], 100, 3, 0⟩)]
    rfl
  have h1' : (compressFuel rng0 5 wC6).2 = none := by rw [h1]
  refine ⟨h1', h.1 h1', by decide, ?_⟩
  exact (C6_compress_count rng0 5 ⟨[⟨some 4, 9⟩], 100, 9, 0⟩
    (IT_of_invB (by decide))).2 (by decide)

/-- C7: merging a valid donor into a valid receiver is weight-preserving
when it returns without error (`a.Count()` becomes the sum of both counts),
and merging an empty donor is a no-op.  (The donor is never written to:
`Merge` clones its summary before shuffling, which is what makes the
functional reading of `mergeTD` faithful.) -/
theorem C7_merge_count (rng : RNG) (fuel : ℕ) (t other : TD)
    (ht : IT t) (hother : IT other) :
    ((mergeTD rng fuel t other).2 = none →
      (mergeTD rng fuel t other).1.count = t.count + other.count) ∧
    (sLen other.cents = 0 → mergeTD rng fuel t other = (t, none)) := by
  constructor
  · intro hok
    unfold mergeTD at hok ⊢
    by_cases h : sLen other.cents = 0
    · have hcnt : other.count = 0 := by
        rw [← hother.total, List.length_eq_zero.1 h]; rfl
      simp [if_pos h, hcnt]
    · simp only [if_neg h] at hok ⊢
      have hperm := shuffle_perm rng other.cents t.pos
      have hQ := replayProps_of_compressProps fuel (compressProps_all fuel)
      have ht' : IT { t with pos := (shuffle rng other.cents t.pos).2 } :=
        ⟨ht.sorted, ht.allSome, ht.posCnt, ht.total⟩
      have hl : ∀ c ∈ (shuffle rng other.cents t.pos).1,
          c.mean.isSome ∧ c.cnt ≠ 0 := by
        intro c hc
        have hmem := hperm.mem_iff.1 hc
        exact ⟨hother.allSome c hmem,
          Nat.pos_iff_ne_zero.1 (hother.posCnt c hmem)⟩
      have hr := hQ rng (shuffle rng other.cents t.pos).1
        { t with pos := (shuffle rng other.cents t.pos).2 } ht' hl
      rw [hr.2.2 hok, totalCnt_perm hperm, hother.total]
  · intro h
    unfold mergeTD
    simp [if_pos h]

set_option maxHeartbeats 4000000 in
theorem C7_merge_count_witness :
    (mergeTD rng0 5 tC7a tC7b).2 = none ∧
    (mergeTD rng0 5 tC7a tC7b).1.count = tC7a.count + tC7b.count ∧
    tC7a.count + tC7b.count = 7 ∧
    mergeTD rng0 5 tC7b (newTD 10) = (tC7b, none) := by
  have h := C7_merge_count rng0 5 tC7a tC7b (IT_of_invB (by decide))
    (IT_of_invB (by decide))
  have hcore1 : awCore rng0 tC7a (some 0) 1 =
      (⟨[⟨some 0, 1⟩, ⟨some 1, 2⟩], 10, 3, 0⟩, none) := by
    have hb : (sFloor tC7a.cents (some 0)).toNat = 0 := by decide
    have hf : findNeighbors tC7a.cents 0 (some 0) = (0, 1) := by
      norm_num [findNeighbors, fnGo, sLen, mAt, fAbs, fSub, fLt, maxFloat64, tC7a]
    have hc : chooseMergeCandidate rng0 tC7a 0 1 1 = (1, 0) := by
      norm_num [chooseMergeCandidate, cmcGo, cAt, headSum, sLen, rng0, tC7a]
    rw [awCore, hb]
    simp only [hf, hc]
    norm_num [summaryAdd, findInsertionIndex, fLt, sLen, tC7a]
  have hcore2 : awCore rng0 ⟨[⟨some 0, 1⟩, ⟨some 1, 2⟩], 10, 3, 0⟩ (some 3) 4 =
      (⟨[⟨some 0, 1⟩, ⟨some 1, 2⟩, ⟨some 3, 4⟩], 10, 7, 0⟩, none) := by
    have hb : (sFloor [⟨some 0, 1⟩, ⟨some 1, 2⟩] (some 3)).toNat = 1 := by decide
    have hf : findNeighbors [⟨some 0, 1⟩, ⟨some 1, 2⟩] 1 (some 3) = (1, 2) := by
      norm_num [findNeighbors, fnGo, sLen, mAt, fAbs, fSub, fLt, maxFloat64]
    have hc : chooseMergeCandidate rng0 ⟨[⟨some 0, 1⟩, ⟨some 1, 2⟩], 10, 3, 0⟩ 1 2 4
        = (2, 0) := by
      norm_num [chooseMergeCandidate, cmcGo, cAt, headSum, sLen, rng0]
    rw [awCore, hb]
    simp only [hf, hc]
    norm_num [summaryAdd, findInsertionIndex, fLt, sLen]
  have h1 : mergeTD rng0 5 tC7a tC7b =
      (⟨[⟨some 0, 1⟩, ⟨some 1, 2⟩, ⟨some 3, 4⟩], 10, 7, 0⟩, none) := by
    have hsh : shuffle rng0 tC7b.cents tC7a.pos = (tC7b.cents, 0) := rfl
    rw [mergeTD]
    simp only [hsh]
    rw [if_neg (by decide : ¬ sLen tC7b.cents = 0)]
    show replayGo rng0 5 tC7b.cents ⟨tC7a.cents, tC7a.compression, tC7a.count, 0⟩ = _
    rw [replayGo]
    show replayWith _ [⟨some 0, 1⟩, ⟨some 3, 4⟩] tC7a = _
    rw [replayWith]
    simp only [awStep, hcore1]
    rw [if_neg (by norm_num [compressTrigger, sLen] :
      ¬ compressTrigger ⟨[⟨some 0, 1⟩, ⟨some 1, 2⟩], 10, 3, 0⟩)]
    show replayWith (awStep (compressFuel rng0 5) rng0) [⟨some 3, 4⟩]
      ⟨[⟨some 0, 1⟩, ⟨some 1, 2⟩], 10, 3, 0⟩ = _
    rw [replayWith]
    simp only [awStep, hcore2]
    rw [if_neg (by norm_num [compressTrigger, sLen] :
      ¬ compressTrigger ⟨[⟨some 0, 1⟩, ⟨some 1, 2⟩, ⟨some 3, 4⟩], 10, 7, 0⟩)]
    rfl
  have h1' : (mergeTD rng0 5 tC7a tC7b).2 = none := by rw [h1]
  refine ⟨h1', h.1 h1', by decide, ?_⟩
  exact (C7_merge_count rng0 5 tC7b (newTD 10) (IT_of_invB (by decide))
    (IT_of_invB (by decide))).2 (by decide)

/-! ## AddWeighted error handling (claims C3 and C5) -/

/-- C3: `AddWeighted` does reject `w = 0` (leaving the digest unchanged)
and a NaN value, but on an **empty** digest the NaN error path mutates the
digest: the source runs `t.count = uint64(count)` before inspecting the
error from `summary.Add`, so `AddWeighted(NaN, 5)` on a fresh digest
reports the error and still leaves `Count() = 5`. -/
theorem C3_addweighted_error_mutates :
    (∀ (rng : RNG) (fuel : ℕ) (t : TD) (v : F),
      addWeighted rng fuel t v 0 = (t, some Err.zeroCount)) ∧
    (addWeighted rng0 1 (newTD 100) none 5).2 = some Err.nanKey ∧
    (addWeighted rng0 1 (newTD 100) none 5).1.count = 5 ∧
    (newTD 100).count = 0 :=
  ⟨fun _ _ _ _ => rfl, rfl, rfl, rfl⟩

/-- C5: the `sum(counts) = Count()` invariant is broken by the same slip:
after the failing `AddWeighted(NaN, 3)` on a fresh digest the centroid
counts sum to 0 while `Count()` reports 3. -/
theorem C5_sum_count_broken :
    (addWeighted rng0 1 (newTD 100) none 3).2 = some Err.nanKey ∧
    totalCnt (addWeighted rng0 1 (newTD 100) none 3).1.cents = 0 ∧
    (addWeighted rng0 1 (newTD 100) none 3).1.count = 3 :=
  ⟨rfl, rfl, rfl⟩

/-! ## Quantile at the endpoints (claim C2) -/

/-- C2, counterexample.  The digest [(0,3), (10,1)] is reachable by
`AddWeighted(0,3)` then `AddWeighted(10,1)` on a fresh digest, its minimum
centroid mean is 0, yet `Quantile(0)` extrapolates *below* the minimum and
returns −5: with a first centroid of weight 3 the "assume linear growth"
branch of the source manufactures a phantom previous mean. -/
theorem C2_counterexample :
    addWeighted rng0 5 (newTD 100) (some 0) 3 = (⟨[⟨some 0, 3⟩], 100, 3, 0⟩, none) ∧
    addWeighted rng0 5 ⟨[⟨some 0, 3⟩], 100, 3, 0⟩ (some 10) 1 = (tC2, none) ∧
    mAt tC2.cents 0 = some 0 ∧
    invB tC2 = true ∧
    quantile tC2 0 = some (-5) := by
  have e1 : addWeighted rng0 5 (newTD 100) (some 0) 3
      = (⟨[⟨some 0, 3⟩], 100, 3, 0⟩, none) := by
    have h : awCore rng0 (newTD 100) (some 0) 3
        = (⟨[⟨some 0, 3⟩], 100, 3, 0⟩, none) := by
      norm_num [awCore, newTD, sLen, summaryAdd, findInsertionIndex]
    simp only [addWeighted, awStep, h]
    rw [if_neg (by norm_num [compressTrigger, sLen] :
      ¬ compressTrigger ⟨[⟨some 0, 3⟩], 100, 3, 0⟩)]
  have e2 : addWeighted rng0 5 ⟨[⟨some 0, 3⟩], 100, 3, 0⟩ (some 10) 1
      = (tC2, none) := by
    have hb : (sFloor [⟨some 0, 3⟩] (some 10)).toNat = 0 := by decide
    have hf : findNeighbors [⟨some 0, 3⟩] 0 (some 10) = (0, 1) := by
      norm_num [findNeighbors, fnGo, sLen, mAt, fAbs, fSub, fLt, maxFloat64]
    have hc : chooseMergeCandidate rng0 ⟨[⟨some 0, 3⟩], 100, 3, 0⟩ 0 1 1
        = (1, 0) := by
      norm_num [chooseMergeCandidate, cmcGo, cAt, headSum, sLen, rng0]
    have h : awCore rng0 ⟨[⟨some 0, 3⟩], 100, 3, 0⟩ (some 10) 1
        = (tC2, none) := by
      rw [awCore, hb]
      simp only [hf, hc]
      norm_num [summaryAdd, findInsertionIndex, fLt, sLen, tC2]
    simp only [addWeighted, awStep, h]
    rw [if_neg (by norm_num [compressTrigger, sLen, tC2] : ¬ compressTrigger tC2)]
  have hq : quantile tC2 0 = some (-5) := by
    have hfs : floorSum [⟨some 0, 3⟩, ⟨some 10, 1⟩] 0 = (0, 0) := by
      norm_num [floorSum, floorSumGo, cAt]
    have hql : quantLoop [⟨some 0, 3⟩, ⟨some 10, 1⟩] 4 0 (1 + 1) 0 0 none 0
        = some (-5) := by
      rw [quantLoop]
      norm_num [cAt, mAt, qInterp, fAdd, fMul, fDiv, fSub]
    rw [quantile]
    norm_num [tC2, sLen, hfs]
    exact hql
  exact ⟨e1, e2, rfl, by decide, hq⟩

/-! ## CDF range (claim C4) -/

/-- C4, counterexample.  The digest [(0,1), (1,1)] is reachable by
`AddWeighted(0,1)` then `AddWeighted(1,1)` on a fresh digest, yet
`CDF(−10)` returns −19/4 ∉ [0,1]: on a two-centroid digest the final block
of the scan runs without the lower clamp that protects the interior loop. -/
theorem C4_counterexample :
    addWeighted rng0 5 (newTD 100) (some 0) 1 = (⟨[⟨some 0, 1⟩], 100, 1, 0⟩, none) ∧
    addWeighted rng0 5 ⟨[⟨some 0, 1⟩], 100, 1, 0⟩ (some 1) 1 = (tC4, none) ∧
    invB tC4 = true ∧
    cdf tC4 (some (-10)) = some (-19/4) := by
  have e1 : addWeighted rng0 5 (newTD 100) (some 0) 1
      = (⟨[⟨some 0, 1⟩], 100, 1, 0⟩, none) := by
    have h : awCore rng0 (newTD 100) (some 0) 1
        = (⟨[⟨some 0, 1⟩], 100, 1, 0⟩, none) := by
      norm_num [awCore, newTD, sLen, summaryAdd, findInsertionIndex]
    simp only [addWeighted, awStep, h]
    rw [if_neg (by norm_num [compressTrigger, sLen] :
      ¬ compressTrigger ⟨[⟨some 0, 1⟩], 100, 1, 0⟩)]
  have e2 : addWeighted rng0 5 ⟨[⟨some 0, 1⟩], 100, 1, 0⟩ (some 1) 1
      = (tC4, none) := by
    have hb : (sFloor [⟨some 0, 1⟩] (some 1)).toNat = 0 := by decide
    have hf : findNeighbors [⟨some 0, 1⟩] 0 (some 1) = (0, 1) := by
      norm_num [findNeighbors, fnGo, sLen, mAt, fAbs, fSub, fLt, maxFloat64]
    have hc : chooseMergeCandidate rng0 ⟨[⟨some 0, 1⟩], 100, 1, 0⟩ 0 1 1
        = (1, 0) := by
      norm_num [chooseMergeCandidate, cmcGo, cAt, headSum, sLen, rng0]
    have h : awCore rng0 ⟨[⟨some 0, 1⟩], 100, 1, 0⟩ (some 1) 1
        = (tC4, none) := by
      rw [awCore, hb]
      simp only [hf, hc]
      norm_num [summaryAdd, findInsertionIndex, fLt, sLen, tC4]
    simp only [addWeighted, awStep, h]
    rw [if_neg (by norm_num [compressTrigger, sLen, tC4] : ¬ compressTrigger tC4)]
  have hc4 : cdf tC4 (some (-10)) = some (-19/4) := by
    have hcl : cdfLoop [⟨some 0, 1⟩, ⟨some 1, 1⟩] 2 (some (-10)) (1 + 1) 1
        (some (1/2)) (some (1/2)) 0 = some (-19/4) := by
      rw [cdfLoop]
      norm_num [sLen, cAt, mAt, interpolate, fAdd, fMul, fDiv, fSub, fLt]
    rw [cdf]
    norm_num [tC4, sLen, mAt, fDiv, fSub]
    convert hcl using 2
    norm_num
  exact ⟨e1, e2, by decide, hc4⟩

/-! ## In-place decode failure atomicity (claim C8) -/

theorem fbCountsGo_err : ∀ (k : ℕ) (bs counts : List ℕ) (total i : ℕ),
    (fbCountsGo k bs counts total i).2.2 = none ∨
    (fbCountsGo k bs counts total i).2.2 = some Err.badVarint := by
  intro k
  induction k with
  | zero => intros; left; rfl
  | succ k ih =>
    intro bs counts total i
    simp only [fbCountsGo]
    rcases h : readUvarint bs with _ | ⟨v, rest⟩
    · right; rfl
    · exact ih rest (counts.set i v) (total + v) (i + 1)

/-- C8, counterexample.  A 20-byte buffer that passes every header check
but holds no varint bytes: decoding it into the valid digest [(5,7)] (δ =
100) reports the varint error **and** leaves the target in a mixed state —
compression overwritten with the buffer's 50, the mean overwritten with
the buffer's 0, the count zeroed — neither fully replaced with decoded
content nor untouched. -/
theorem C8_counterexample :
    fromBytesBuf tC8 bufC8 = (⟨[⟨some 0, 7⟩], 50, 0, 0⟩, some Err.badVarint) ∧
    invB tC8 = true ∧
    tC8.compression = 100 ∧ tC8.count = 7 := by
  have hfb : float64frombits 4632233691727265792 = some 50 := by
    norm_num [float64frombits]
  have hf32 : float32frombits 0 = some 0 := by
    norm_num [float32frombits]
  refine ⟨?_, by decide, rfl, rfl⟩
  rw [fromBytesBuf]
  norm_num [bufC8, tC8, beToNat, hfb, hf32, fbMeansGo, fbCountsGo, readUvarint,
    readUvarintGo, fAdd]

/-- C8, amended: only the varint stage can leave a mixed state.  Every
failure before it — short buffer, wrong version tag, implausible centroid
count, buffer shorter than the announced mean block — returns with the
target digest completely untouched; a `badVarint` error is the single
exception (the source itself warns "this TDigest is now invalid"). -/
theorem C8_header_failures_leave_target (t : TD) (buf : List ℕ) (e : Err)
    (h : (fromBytesBuf t buf).2 = some e) (he : e ≠ Err.badVarint) :
    (fromBytesBuf t buf).1 = t := by
  unfold fromBytesBuf at h ⊢
  by_cases h1 : buf.length < 16
  · rw [if_pos h1]
  · simp only [if_neg h1] at h ⊢
    by_cases h2 : beToNat (buf.take 4) ≠ 2
    · rw [if_pos h2]
    · simp only [if_neg h2] at h ⊢
      by_cases h3 : 2 ^ 22 < beToNat ((buf.drop 12).take 4)
      · rw [if_pos h3]
      · simp only [if_neg h3] at h ⊢
        by_cases h4 : buf.length < 16 + 4 * beToNat ((buf.drop 12).take 4)
        · rw [if_pos h4]
        · simp only [if_neg h4] at h ⊢
          exfalso
          have h' : (fbCountsGo (beToNat ((buf.drop 12).take 4))
              (buf.drop (16 + 4 * beToNat ((buf.drop 12).take 4)))
              ((t.cents.map Cent.cnt).take (beToNat ((buf.drop 12).take 4)) ++
                List.replicate (beToNat ((buf.drop 12).take 4)
                  - (t.cents.map Cent.cnt).length) 0) 0 0).2.2 = some e := h
          rcases fbCountsGo_err (beToNat ((buf.drop 12).take 4))
              (buf.drop (16 + 4 * beToNat ((buf.drop 12).take 4)))
              ((t.cents.map Cent.cnt).take (beToNat ((buf.drop 12).take 4)) ++
                List.replicate (beToNat ((buf.drop 12).take 4)
                  - (t.cents.map Cent.cnt).length) 0) 0 0 with hh | hh
          · rw [hh] at h'; exact Option.noConfusion h'
          · rw [hh] at h'
            exact he (Option.some.inj h').symm

theorem C8_header_failures_witness :
    (fromBytesBuf tC8 []).2 = some Err.shortBuffer ∧
    (fromBytesBuf tC8 []).1 = tC8 :=
  ⟨rfl, C8_header_failures_leave_target tC8 [] Err.shortBuffer rfl (by decide)⟩

/-! ## Quantile endpoints, amended (claim C2) -/

theorem headSum_succ (s : List Cent) (k : ℕ) :
    headSum s (k + 1) = headSum s k + cAt s k := by
  unfold headSum cAt
  rw [List.take_succ]
  rcases h : s[k]? with _ | el
  · simp [List.getD_eq_getElem?_getD, h]
    rfl
  · simp [List.getD_eq_getElem?_getD, h]

theorem headSum_mono (s : List Cent) : ∀ {j k : ℕ}, j ≤ k →
    headSum s j ≤ headSum s k := by
  intro j k h
  induction k with
  | zero =>
    have hj : j = 0 := by omega
    simp [hj]
  | succ k ih =>
    rcases Nat.lt_or_ge j (k + 1) with h1 | h1
    · have h2 := ih (by omega)
      rw [headSum_succ]
      omega
    · have hj : j = k + 1 := by omega
      simp [hj]

theorem headSum_all (s : List Cent) : headSum s s.length = totalCnt s := by
  unfold headSum totalCnt
  simp

theorem floorSumGo_all (sum : ℚ) :
    ∀ (l : List Cent), l ≠ [] → ∀ (i : ℕ) (idx : ℤ) (cum : ℚ),
    (∀ k, k < l.length → cum + ((((l.take k).map Cent.cnt).sum : ℕ) : ℚ) ≤ sum) →
    floorSumGo sum l i idx cum = ((i : ℤ) + l.length - 1, cum + (totalCnt l : ℚ)) := by
  intro l
  induction l with
  | nil => intro h; exact absurd rfl h
  | cons c l ih =>
    intro _ i idx cum h
    have h0 : cum ≤ sum := by
      have := h 0 (by simp)
      simpa using this
    rcases l with _ | ⟨c', l'⟩
    · simp only [floorSumGo, if_pos h0, totalCnt, List.map_cons, List.map_nil,
        List.sum_cons, List.sum_nil, List.length_cons, List.length_nil,
        Prod.mk.injEq]
      constructor
      · push_cast; ring
      · push_cast; ring
    · have hne : (c' :: l') ≠ [] := by simp
      have h' : ∀ k, k < (c' :: l').length →
          (cum + c.cnt) + (((((c' :: l').take k).map Cent.cnt).sum : ℕ) : ℚ) ≤ sum := by
        intro k hk
        have := h (k + 1) (by simpa using Nat.succ_lt_succ hk)
        rw [List.take_succ_cons] at this
        push_cast at this ⊢
        simp only [List.map_cons, List.sum_cons] at this
        push_cast at this
        linarith [this]
      have hrec := ih hne (i + 1) i (cum + c.cnt) h'
      rw [floorSumGo, if_pos h0, hrec]
      simp only [Prod.mk.injEq]
      refine ⟨by push_cast [List.length_cons]; ring, ?_⟩
      have ht : totalCnt (c :: c' :: l') = c.cnt + totalCnt (c' :: l') := by
        simp [totalCnt]
      rw [ht]
      push_cast
      ring


theorem qInterp_right (index prevIdx nextIdx : ℚ) (pm nm : ℚ)
    (h1 : nextIdx = index) (h2 : index - prevIdx ≠ 0) :
    qInterp index prevIdx nextIdx (some pm) (some nm) = some nm := by
  subst h1
  unfold qInterp fMul fAdd fDiv
  simp only [sub_self, if_neg h2, zero_div, mul_zero, div_self h2, mul_one,
    zero_add]

set_option maxHeartbeats 1000000 in
/-- C2, amended: `Quantile(0)` returns the minimum centroid mean whenever
the first centroid has weight 1 (in particular on any single-centroid
digest), and `Quantile(1)` returns the maximum centroid mean whenever the
last centroid has weight 1; with heavier boundary centroids the source
extrapolates beyond the extreme means (see the counterexample). -/
theorem C2_amended (t : TD) (ht : IT t) (hne : sLen t.cents ≠ 0) :
    (cAt t.cents 0 = 1 ∨ sLen t.cents = 1 → quantile t 0 = mAt t.cents 0) ∧
    (cAt t.cents (sLen t.cents - 1) = 1 ∨ sLen t.cents = 1 →
      quantile t 1 = mAt t.cents (sLen t.cents - 1)) := by
  have hlen : 0 < t.cents.length := by
    unfold sLen at hne; omega
  by_cases h1 : sLen t.cents = 1
  · have hq0 : quantile t 0 = mAt t.cents 0 := by
      unfold quantile
      rw [if_neg (by norm_num), if_neg hne, if_pos h1]
    have hq1 : quantile t 1 = mAt t.cents 0 := by
      unfold quantile
      rw [if_neg (by norm_num), if_neg hne, if_pos h1]
    have hidx : sLen t.cents - 1 = 0 := by omega
    exact ⟨fun _ => hq0, fun _ => by rw [hq1, hidx]⟩
  · have hlen2 : 2 ≤ t.cents.length := by
      unfold sLen at hne h1; omega
    constructor
    · rintro (hc0 | h1')
      swap
      · exact absurd h1' h1
      -- Quantile(0) when the first centroid has weight 1
      obtain ⟨c0, rest, hsplit⟩ : ∃ c0 rest, t.cents = c0 :: rest := by
        rcases hc : t.cents with _ | ⟨c0, rest⟩
        · rw [hc] at hlen; simp at hlen
        · exact ⟨c0, rest, rfl⟩
      obtain ⟨c1, rest', hsplit'⟩ : ∃ c1 rest', rest = c1 :: rest' := by
        rcases hc : rest with _ | ⟨c1, rest'⟩
        · rw [hsplit, hc] at hlen2; simp at hlen2
        · exact ⟨c1, rest', rfl⟩
      have hc0cnt : c0.cnt = 1 := by
        have : cAt t.cents 0 = c0.cnt := by rw [hsplit]; rfl
        omega
      have hfs : floorSum t.cents 0 = (0, 0) := by
        unfold floorSum
        have hgo : floorSumGo 0 t.cents 0 (-1) 0 = (0, 1) := by
          rw [hsplit, hsplit']
          rw [floorSumGo, if_pos (le_refl (0 : ℚ))]
          rw [floorSumGo, if_neg (by rw [hc0cnt]; norm_num)]
          rw [hc0cnt]
          norm_num
        rw [hgo]
        norm_num
        rw [hsplit]
        simp [hc0cnt]
      unfold quantile
      rw [if_neg (by norm_num), if_neg hne, if_neg h1]
      simp only [zero_mul, hfs]
      rw [if_neg (by norm_num : ¬ (0 : ℤ) < (0, (0 : ℚ)).1)]
      have hfuel : sLen t.cents = (sLen t.cents - 1) + 1 := by
        unfold sLen; omega
      rw [hfuel, quantLoop]
      have hcAt0 : cAt t.cents 0 = 1 := hc0
      norm_num [hcAt0]
    · rintro (hcl | h1')
      swap
      · exact absurd h1' h1
      -- Quantile(1) when the last centroid has weight 1
      have hclcnt : cAt t.cents (t.cents.length - 1) = 1 := by
        unfold sLen at hcl
        exact hcl
      have hNpos : 0 < t.count := by
        rw [← ht.total]
        rcases hc : t.cents with _ | ⟨c0, rest⟩
        · rw [hc] at hlen; simp at hlen
        · have hpos := ht.posCnt c0 (by rw [hc]; simp)
          simp only [totalCnt, List.map_cons, List.sum_cons]
          omega
      have hheadN : headSum t.cents (t.cents.length - 1) + 1 = t.count := by
        have h2 := headSum_succ t.cents (t.cents.length - 1)
        have h3 : t.cents.length - 1 + 1 = t.cents.length := by omega
        rw [h3, headSum_all, ht.total, hclcnt] at h2
        omega
      have hbound : ∀ k, k < t.cents.length →
          (0 : ℚ) + ((((t.cents.take k).map Cent.cnt).sum : ℕ) : ℚ)
            ≤ 1 * ((t.count : ℚ) - 1) := by
        intro k hk
        have h4 : headSum t.cents k ≤ headSum t.cents (t.cents.length - 1) :=
          headSum_mono t.cents (by omega)
        have h5 : headSum t.cents k + 1 ≤ t.count := by omega
        have h6 : ((headSum t.cents k : ℕ) : ℚ) + 1 ≤ (t.count : ℚ) := by
          exact_mod_cast h5
        unfold headSum at h6
        rw [zero_add, one_mul]
        linarith
      have hgo := floorSumGo_all (1 * ((t.count : ℚ) - 1)) t.cents
        (by intro hc; rw [hc] at hlen; simp at hlen) 0 (-1) 0 hbound
      have hfs1 : floorSum t.cents (1 * ((t.count : ℚ) - 1))
          = ((t.cents.length : ℤ) - 1, (t.count : ℚ) - 1) := by
        unfold floorSum
        rw [hgo]
        rw [if_pos (by
          simp only [ne_eq]
          push_cast
          omega)]
        simp only [Nat.cast_zero, zero_add]
        have he1 : ((t.cents.length : ℤ) - 1).toNat = t.cents.length - 1 := by
          omega
        rw [he1]
        have he2 : (t.cents.getD (t.cents.length - 1) ⟨none, 0⟩).cnt = 1 := hclcnt
        rw [he2]
        simp only [Prod.mk.injEq]
        constructor
        · ring
        · rw [ht.total]; push_cast; ring
      unfold quantile
      rw [if_neg (by norm_num), if_neg hne, if_neg h1]
      simp only [hfs1]
      have hipos : (0:ℤ) < (t.cents.length : ℤ) - 1 := by omega
      rw [if_pos hipos]
      have htn : ((t.cents.length : ℤ) - 1).toNat = t.cents.length - 1 := by omega
      simp only [htn]
      have e2 : t.cents.length - 1 - 1 = t.cents.length - 2 := by omega
      simp only [e2]
      have hfuel : sLen t.cents = (sLen t.cents - 1) + 1 := by unfold sLen; omega
      rw [hfuel, quantLoop]
      have hlast : sLen t.cents - 1 = t.cents.length - 1 := by unfold sLen; omega
      simp only [hlast, hclcnt]
      have hmem2 : t.cents.getD (t.cents.length - 2) default ∈ t.cents := by
        have hlt : t.cents.length - 2 < t.cents.length := by omega
        rw [List.getD_eq_getElem t.cents default hlt]
        exact List.getElem_mem hlt
      obtain ⟨pm', hpm'⟩ := Option.isSome_iff_exists.1 (ht.allSome _ hmem2)
      have hpm : mAt t.cents (t.cents.length - 2) = some pm' := hpm'
      have hmem1 : t.cents.getD (t.cents.length - 1) default ∈ t.cents := by
        have hlt : t.cents.length - 1 < t.cents.length := by omega
        rw [List.getD_eq_getElem t.cents default hlt]
        exact List.getElem_mem hlt
      obtain ⟨ml, hml'⟩ := Option.isSome_iff_exists.1 (ht.allSome _ hmem1)
      have hml : mAt t.cents (t.cents.length - 1) = some ml := hml'
      have hc2pos : (0:ℚ) < ((cAt t.cents (t.cents.length - 2) : ℚ) + 1) / 2 := by
        positivity
      rw [if_pos (by push_cast; linarith :
        1 * ((t.count : ℚ) - 1) ≤ (t.count : ℚ) - 1 + (((1:ℕ) : ℚ) - 1) / 2)]
      rw [hpm]
      rw [if_neg (by simp :
        ¬ Option.isNone (some pm') = true)]
      have e3 : t.cents.length - 1 + 1 - 1 = t.cents.length - 1 := by omega
      simp only [e3]
      rw [hml]
      rw [qInterp_right _ _ _ _ _ (by push_cast; ring)
        (by intro h; push_cast at h; linarith)]

theorem C2_amended_witness :
    quantile ⟨[⟨some 2, 1⟩, ⟨some 5, 3⟩], 100, 4, 0⟩ 0 = some 2 ∧
    quantile ⟨[⟨some 2, 3⟩, ⟨some 5, 1⟩], 100, 4, 0⟩ 1 = some 5 := by
  have h1 := (C2_amended ⟨[⟨some 2, 1⟩, ⟨some 5, 3⟩], 100, 4, 0⟩
    (IT_of_invB (by decide)) (by decide)).1 (Or.inl (by decide))
  have h2 := (C2_amended ⟨[⟨some 2, 3⟩, ⟨some 5, 1⟩], 100, 4, 0⟩
    (IT_of_invB (by decide)) (by decide)).2 (Or.inl (by decide))
  constructor
  · rw [h1]; rfl
  · rw [h2]; rfl

/-! ## CDF range, amended (claim C4) -/

set_option maxHeartbeats 2000000 in
theorem cdfLoop_bounds (s : List Cent) (N : ℕ)
    (hall : ∀ c ∈ s, c.mean.isSome)
    (htot : totalCnt s = N)
    (hle : ∀ j, j + 1 < s.length →
      (mAt s j).getD 0 ≤ (mAt s (j + 1)).getD 0)
    (hn3 : 3 ≤ s.length) (hNpos : 0 < N) (x : ℚ) :
    ∀ (fuel : ℕ) (i : ℕ) (lq rq tot : ℚ),
    1 ≤ i → i ≤ s.length - 1 → s.length ≤ fuel + i →
    tot = (headSum s (i - 1) : ℚ) →
    0 ≤ lq →
    rq = ((mAt s i).getD 0 - (mAt s (i - 1)).getD 0) / 2 →
    (i = 1 ∨ (mAt s (i - 1)).getD 0 - lq ≤ x) →
    ∃ r, cdfLoop s N (some x) fuel i (some lq) (some rq) tot = some r ∧
      0 ≤ r ∧ r ≤ 1 ∧
      ((mAt s (s.length - 1)).getD 0 ≤ x → r = 1) := by
  -- mean accessor facts
  have hm : ∀ j, j < s.length → mAt s j = some ((mAt s j).getD 0) := by
    intro j hj
    have hmem : s.getD j default ∈ s := by
      rw [List.getD_eq_getElem s default hj]
      exact List.getElem_mem hj
    obtain ⟨v, hv⟩ := Option.isSome_iff_exists.1 (hall _ hmem)
    unfold mAt
    rw [hv]
    rfl
  have hmono : ∀ j k, j ≤ k → k < s.length →
      (mAt s j).getD 0 ≤ (mAt s k).getD 0 := by
    intro j k hjk hk
    induction k with
    | zero =>
      have : j = 0 := by omega
      simp [this]
    | succ k ihk =>
      rcases Nat.lt_or_ge j (k + 1) with h | h
      · have h5 := ihk (by omega) (by omega)
        have h6 := hle k hk
        linarith
      · have : j = k + 1 := by omega
        simp [this]
  have hhs : ∀ j, headSum s j ≤ N := by
    intro j
    rw [← htot]
    unfold headSum totalCnt
    conv_rhs => rw [← List.take_append_drop j s]
    rw [List.map_append, List.sum_append]
    omega
  intro fuel
  induction fuel with
  | zero =>
    intro i lq rq tot hi1 hi2 hfuel
    omega
  | succ fuel ih =>
    intro i lq rq tot hi1 hi2 hfuel htotq hlq hrq hhist
    have hiln : i < s.length := by omega
    have hi1n : i - 1 < s.length := by omega
    have hii : i - 1 + 1 = i := by omega
    have hrqnn : 0 ≤ rq := by
      have h8 := hle (i - 1) (by omega)
      rw [hii] at h8
      rw [hrq]
      linarith
    have hNq : (0 : ℚ) < (N : ℚ) := by exact_mod_cast hNpos
    have hNne : ((N : ℕ) : ℚ) ≠ 0 := ne_of_gt hNq
    rw [cdfLoop]
    simp only [sLen]
    by_cases hint : i < s.length - 1
    · rw [if_pos hint]
      rw [hm (i - 1) hi1n]
      by_cases htest : x < (mAt s (i - 1)).getD 0 + rq
      · have hctest : fLt (some x) (fAdd (some ((mAt s (i - 1)).getD 0)) (some rq))
            = true := by
          simp only [fAdd, fLt, decide_eq_true_eq]
          exact htest
        rw [if_pos hctest]
        by_cases hd0 : ((mAt s (i - 1)).getD 0 + rq) - ((mAt s (i - 1)).getD 0 - lq)
            = 0
        · -- zero-width interval: the interpolation divides by zero, the NaN
          -- propagates, the `v > 0` test is false and the clamp returns 0.
          -- Reachable only below the first centroid's half-interval: for
          -- `i ≥ 2` the history bound puts `x` at or above the lower edge,
          -- which here equals the upper edge the test says `x` is below.
          refine ⟨0, ?_, le_refl 0, zero_le_one, ?_⟩
          · simp only [interpolate, fSub, fAdd, fMul, fDiv, if_pos hd0]
            rw [if_neg (by simp [fLt])]
          · intro hx
            have h13 : (mAt s (i - 1)).getD 0 ≤ (mAt s (s.length - 1)).getD 0 :=
              hmono (i - 1) (s.length - 1) (by omega) (by omega)
            linarith
        · have hden : ((mAt s (i - 1)).getD 0 + rq) - ((mAt s (i - 1)).getD 0 - lq)
              ≠ 0 := hd0
          simp only [interpolate, fSub, fAdd, fMul, fDiv, if_neg hden, if_neg hNne,
            fLt, decide_eq_true_eq]
          set d : ℚ := (mAt s (i - 1)).getD 0 + rq - ((mAt s (i - 1)).getD 0 - lq)
            with hd
          set ip : ℚ := (x - ((mAt s (i - 1)).getD 0 - lq)) / d with hipdef
          set V : ℚ := (tot + (cAt s (i - 1) : ℚ) * ip) / (N : ℚ) with hV
          have hcnn : (0:ℚ) ≤ (cAt s (i - 1) : ℚ) := Nat.cast_nonneg _
          have hdpos : (0:ℚ) < d := by
            have h1 : (0:ℚ) ≤ d := by rw [hd]; linarith
            have h2 : d ≠ 0 := by rw [hd]; exact hd0
            exact lt_of_le_of_ne h1 (Ne.symm h2)
          have hiplt1 : ip < 1 := by
            rw [hipdef]
            exact (div_lt_one hdpos).2 (by rw [hd]; linarith)
          have htot_nn : (0:ℚ) ≤ tot := by rw [htotq]; positivity
          have hnum_le : tot + (cAt s (i - 1) : ℚ) * ip ≤ (N : ℚ) := by
            have h9 : (cAt s (i - 1) : ℚ) * ip ≤ (cAt s (i - 1) : ℚ) := by
              nlinarith
            have h11 := headSum_succ s (i - 1)
            rw [hii] at h11
            have h12 := hhs i
            have h13 : headSum s (i - 1) + cAt s (i - 1) ≤ N := by omega
            have h14 : ((headSum s (i - 1) : ℕ) : ℚ) + ((cAt s (i - 1) : ℕ) : ℚ)
                ≤ ((N : ℕ) : ℚ) := by exact_mod_cast h13
            rw [htotq]
            linarith
          have hvle1 : V ≤ 1 := by
            rw [hV]
            exact (div_le_one hNq).2 hnum_le
          have hnofire : ¬ ((mAt s (s.length - 1)).getD 0 ≤ x) := by
            intro hx
            have h13 : (mAt s i).getD 0 ≤ (mAt s (s.length - 1)).getD 0 :=
              hmono i (s.length - 1) (by omega) (by omega)
            have h14 : (mAt s (i - 1)).getD 0 + rq = (mAt s i).getD 0 - rq := by
              rw [hrq]; ring
            linarith
          split_ifs with hv
          · exact ⟨V, rfl, le_of_lt hv, hvle1, fun hx => absurd hx hnofire⟩
          · exact ⟨0, rfl, le_refl 0, zero_le_one, fun hx => absurd hx hnofire⟩
      · have hxge : (mAt s (i - 1)).getD 0 + rq ≤ x := not_lt.1 htest
        have hctest : fLt (some x) (fAdd (some ((mAt s (i - 1)).getD 0)) (some rq))
            = false := by
          simp only [fAdd, fLt]
          simpa using htest
        rw [if_neg (by rw [hctest]; exact Bool.false_ne_true)]
        have hi1n' : i + 1 < s.length := by omega
        rw [hm (i + 1) hi1n', hm i hiln]
        simp only [fSub, fDiv]
        rw [if_neg (two_ne_zero : (2:ℚ) ≠ 0)]
        have e1 : i + 1 - 1 = i := by omega
        have htot' : tot + ((cAt s (i - 1) : ℕ) : ℚ)
            = ((headSum s (i + 1 - 1) : ℕ) : ℚ) := by
          rw [e1]
          have h11 := headSum_succ s (i - 1)
          rw [hii] at h11
          rw [htotq, h11]
          push_cast
          ring
        have hmeq : (mAt s i).getD 0 - rq = (mAt s (i - 1)).getD 0 + rq := by
          rw [hrq]; ring
        obtain ⟨r, hr, hr0, hr1, hrmax⟩ := ih (i + 1) rq
          (((mAt s (i + 1)).getD 0 - (mAt s i).getD 0) / 2)
          (tot + ((cAt s (i - 1) : ℕ) : ℚ))
          (by omega) (by omega) (by omega) htot' hrqnn
          (by rw [e1]) (Or.inr (by rw [e1]; linarith))
        exact ⟨r, hr, hr0, hr1, hrmax⟩
    · rw [if_neg hint]
      have hieq : i = s.length - 1 := by omega
      have haidx : s.length - 2 = i - 1 := by omega
      rw [haidx]
      rw [hm (i - 1) hi1n]
      have hi2' : 2 ≤ i := by omega
      have hhist' : (mAt s (i - 1)).getD 0 - lq ≤ x := by
        rcases hhist with h | h
        · exact absurd h (by omega)
        · exact h
      by_cases htest : x < (mAt s (i - 1)).getD 0 + rq
      · have hctest : fLt (some x) (fAdd (some ((mAt s (i - 1)).getD 0)) (some rq))
            = true := by
          simp only [fAdd, fLt, decide_eq_true_eq]
          exact htest
        rw [if_pos hctest]
        have hdpos0 : (0:ℚ) < ((mAt s (i - 1)).getD 0 + rq)
            - ((mAt s (i - 1)).getD 0 - lq) := by linarith
        have hden : ((mAt s (i - 1)).getD 0 + rq) - ((mAt s (i - 1)).getD 0 - lq)
            ≠ 0 := ne_of_gt hdpos0
        simp only [interpolate, fSub, fAdd, fMul, fDiv, if_neg hden, if_neg hNne]
        set d : ℚ := (mAt s (i - 1)).getD 0 + rq - ((mAt s (i - 1)).getD 0 - lq)
          with hd
        set ip : ℚ := (x - ((mAt s (i - 1)).getD 0 - lq)) / d with hipdef
        set V : ℚ := (tot + (cAt s (i - 1) : ℚ) * ip) / (N : ℚ) with hV
        have hcnn : (0:ℚ) ≤ (cAt s (i - 1) : ℚ) := Nat.cast_nonneg _
        have hdpos : (0:ℚ) < d := by rw [hd]; exact hdpos0
        have hipnn : 0 ≤ ip := by
          rw [hipdef]
          apply div_nonneg _ (le_of_lt hdpos)
          linarith
        have hiplt1 : ip < 1 := by
          rw [hipdef]
          exact (div_lt_one hdpos).2 (by rw [hd]; linarith)
        have htot_nn : (0:ℚ) ≤ tot := by rw [htotq]; positivity
        have hnum_le : tot + (cAt s (i - 1) : ℚ) * ip ≤ (N : ℚ) := by
          have h9 : (cAt s (i - 1) : ℚ) * ip ≤ (cAt s (i - 1) : ℚ) := by
            nlinarith
          have h11 := headSum_succ s (i - 1)
          rw [hii] at h11
          have h12 := hhs i
          have h13 : headSum s (i - 1) + cAt s (i - 1) ≤ N := by omega
          have h14 : ((headSum s (i - 1) : ℕ) : ℚ) + ((cAt s (i - 1) : ℕ) : ℚ)
              ≤ ((N : ℕ) : ℚ) := by exact_mod_cast h13
          rw [htotq]
          linarith
        have hnofire : ¬ ((mAt s (s.length - 1)).getD 0 ≤ x) := by
          intro hx
          rw [← hieq] at hx
          have h14 : (mAt s (i - 1)).getD 0 + rq = (mAt s i).getD 0 - rq := by
            rw [hrq]; ring
          linarith
        refine ⟨V, rfl, ?_, ?_, fun hx => absurd hx hnofire⟩
        · rw [hV]
          apply div_nonneg _ (le_of_lt hNq)
          nlinarith
        · rw [hV]
          exact (div_le_one hNq).2 hnum_le
      · have hctest : fLt (some x) (fAdd (some ((mAt s (i - 1)).getD 0)) (some rq))
            = false := by
          simp only [fAdd, fLt]
          simpa using htest
        rw [if_neg (by rw [hctest]; exact Bool.false_ne_true)]
        exact ⟨1, rfl, zero_le_one, le_refl 1, fun _ => rfl⟩

set_option maxHeartbeats 1000000 in
/-- C4, amended: the claimed range law holds away from the two-centroid
case, with no condition on ties: a single-centroid digest returns the step
function values 0 or 1, and on any valid digest with at least three
centroids (means non-decreasing as the invariant requires, ties allowed)
`CDF(x)` lands in [0,1] for every finite x, returning exactly 1 for any x
at or above the maximum mean.  (With exactly two centroids the final
unclamped block can undershoot 0 — the counterexample — and has no
interior loop to protect it.) -/
theorem C4_amended (t : TD) (ht : IT t) :
    (sLen t.cents = 1 → ∀ x : ℚ, cdf t (some x) = some 0 ∨ cdf t (some x) = some 1) ∧
    (3 ≤ sLen t.cents → ∀ x : ℚ,
      ∃ r, cdf t (some x) = some r ∧ 0 ≤ r ∧ r ≤ 1 ∧
        ((mAt t.cents (sLen t.cents - 1)).getD 0 ≤ x → r = 1)) := by
  constructor
  · intro h1 x
    unfold cdf
    rw [if_neg (by rw [h1]; norm_num), if_pos h1]
    by_cases hx : fLt (some x) (mAt t.cents 0) = true
    · left; rw [if_pos hx]
    · right; rw [if_neg hx]
  · intro h3 x
    have hlen3 : 3 ≤ t.cents.length := h3
    have hle : ∀ j, j + 1 < t.cents.length →
        (mAt t.cents j).getD 0 ≤ (mAt t.cents (j + 1)).getD 0 := by
      intro j hj
      have hc := List.pairwise_iff_get.1 ht.sorted ⟨j, by omega⟩ ⟨j + 1, hj⟩
        (Fin.mk_lt_mk.2 (Nat.lt_succ_self j))
      unfold leF at hc
      have hgj : t.cents.get ⟨j, by omega⟩ = t.cents.getD j default := by
        rw [List.getD_eq_getElem t.cents default (by omega : j < t.cents.length)]
        rfl
      have hgj1 : t.cents.get ⟨j + 1, hj⟩ = t.cents.getD (j + 1) default := by
        rw [List.getD_eq_getElem t.cents default hj]
        rfl
      rw [hgj, hgj1] at hc
      have hmemj : t.cents.getD j default ∈ t.cents := by
        rw [List.getD_eq_getElem t.cents default (by omega : j < t.cents.length)]
        exact List.getElem_mem (by omega)
      have hmemj1 : t.cents.getD (j + 1) default ∈ t.cents := by
        rw [List.getD_eq_getElem t.cents default hj]
        exact List.getElem_mem (by omega)
      obtain ⟨a, ha⟩ := Option.isSome_iff_exists.1 (ht.allSome _ hmemj)
      obtain ⟨b, hb⟩ := Option.isSome_iff_exists.1 (ht.allSome _ hmemj1)
      rw [ha, hb] at hc
      have hab : a ≤ b := by simpa [fLe] using hc
      unfold mAt
      rw [ha, hb]
      simpa using hab
    have hNpos : 0 < t.count := by
      rw [← ht.total]
      rcases hc : t.cents with _ | ⟨c0, rest⟩
      · rw [hc] at hlen3; simp at hlen3
      · have hpos := ht.posCnt c0 (by rw [hc]; simp)
        simp only [totalCnt, List.map_cons, List.sum_cons]
        omega
    have hm0 : mAt t.cents 0 = some ((mAt t.cents 0).getD 0) := by
      have hmem : t.cents.getD 0 default ∈ t.cents := by
        rw [List.getD_eq_getElem t.cents default (by omega : 0 < t.cents.length)]
        exact List.getElem_mem (by omega)
      obtain ⟨v, hv⟩ := Option.isSome_iff_exists.1 (ht.allSome _ hmem)
      unfold mAt
      rw [hv]
      rfl
    have hm1 : mAt t.cents 1 = some ((mAt t.cents 1).getD 0) := by
      have hmem : t.cents.getD 1 default ∈ t.cents := by
        rw [List.getD_eq_getElem t.cents default (by omega : 1 < t.cents.length)]
        exact List.getElem_mem (by omega)
      obtain ⟨v, hv⟩ := Option.isSome_iff_exists.1 (ht.allSome _ hmem)
      unfold mAt
      rw [hv]
      rfl
    have hl0nn : 0 ≤ ((mAt t.cents 1).getD 0 - (mAt t.cents 0).getD 0) / 2 := by
      have := hle 0 (by omega)
      linarith
    unfold cdf
    rw [if_neg (by unfold sLen; omega), if_neg (by unfold sLen; omega)]
    rw [hm0, hm1]
    simp only [fSub, fDiv]
    rw [if_neg (two_ne_zero : (2:ℚ) ≠ 0)]
    obtain ⟨r, hr, hr0, hr1, hrmax⟩ := cdfLoop_bounds t.cents t.count
      ht.allSome ht.total hle hlen3 hNpos x (sLen t.cents) 1
      (((mAt t.cents 1).getD 0 - (mAt t.cents 0).getD 0) / 2)
      (((mAt t.cents 1).getD 0 - (mAt t.cents 0).getD 0) / 2)
      0 (le_refl 1) (by omega) (by unfold sLen; omega)
      (by simp [headSum]) hl0nn (by norm_num) (Or.inl rfl)
    exact ⟨r, hr, hr0, hr1, hrmax⟩

instance : DecidableRel ltF := fun x y =>
  inferInstanceAs (Decidable (fLt x.mean y.mean = true))

theorem C4_amended_witness :
    ∃ r, cdf ⟨[⟨some 0, 1⟩, ⟨some 2, 1⟩, ⟨some 4, 1⟩], 100, 3, 0⟩ (some 1)
        = some r ∧ 0 ≤ r ∧ r ≤ 1 ∧
      ((mAt (⟨[⟨some 0, 1⟩, ⟨some 2, 1⟩, ⟨some 4, 1⟩], 100, 3, 0⟩ : TD).cents
          (sLen (⟨[⟨some 0, 1⟩, ⟨some 2, 1⟩, ⟨some 4, 1⟩], 100, 3, 0⟩ : TD).cents
            - 1)).getD 0 ≤ 1 → r = 1) :=
  (C4_amended ⟨[⟨some 0, 1⟩, ⟨some 2, 1⟩, ⟨some 4, 1⟩], 100, 3, 0⟩
    (IT_of_invB (by decide))).2 (by decide) 1

/-! ## The prefix-sum cache is transparent (claim C10) -/

theorem hsLoop2_val (cents : List Cent) (endN : ℕ) :
    ∀ (fuel i : ℕ) (sum : ℕ), sum = headSum cents i → i ≤ endN →
    endN ≤ fuel + i → hsLoop2 cents endN fuel i sum = headSum cents endN := by
  intro fuel
  induction fuel with
  | zero =>
    intro i sum hs hi hf
    have : i = endN := by omega
    rw [hsLoop2, hs, this]
  | succ fuel ih =>
    intro i sum hs hi hf
    rw [hsLoop2]
    by_cases h : i < endN
    · rw [if_pos h]
      exact ih (i + 1) _ (by rw [hs, headSum_succ]) (by omega) (by omega)
    · rw [if_neg h]
      have : i = endN := by omega
      rw [hs, this]

theorem hsLoop1_val (cents : List Cent) (endN : ℕ) :
    ∀ (fuel i : ℕ) (sum : ℕ) (cache : Option SumCache),
    sum = headSum cents i → i ≤ endN → endN ≤ 4 * fuel + i →
    (hsLoop1 cents endN fuel i sum cache).2.1
        = headSum cents (hsLoop1 cents endN fuel i sum cache).1 ∧
    (hsLoop1 cents endN fuel i sum cache).1 ≤ endN := by
  intro fuel
  induction fuel with
  | zero =>
    intro i sum cache hs hi hf
    rw [hsLoop1]
    exact ⟨hs, hi⟩
  | succ fuel ih =>
    intro i sum cache hs hi hf
    rw [hsLoop1]
    by_cases h : i + 4 ≤ endN
    · rw [if_pos h]
      refine ih (i + 4) _ _ ?_ (by omega) (by omega)
      rw [hs, headSum_succ, headSum_succ, headSum_succ, headSum_succ]
    · rw [if_neg h]
      exact ⟨hs, hi⟩

theorem hsLoop1_none (cents : List Cent) (endN : ℕ) :
    ∀ (fuel i : ℕ) (sum : ℕ),
    (hsLoop1 cents endN fuel i sum none).2.2 = none := by
  intro fuel
  induction fuel with
  | zero => intro i sum; rw [hsLoop1]
  | succ fuel ih =>
    intro i sum
    rw [hsLoop1]
    by_cases h : i + 4 ≤ endN
    · rw [if_pos h]
      exact ih (i + 4) _
    · rw [if_neg h]

theorem headSum_insertIdx (a : Cent) :
    ∀ (m idx : ℕ) (l : List Cent), m ≤ idx →
    headSum (l.insertIdx idx a) m = headSum l m := by
  intro m
  induction m with
  | zero => intro idx l h; rfl
  | succ m ihm =>
    intro idx l h
    rcases idx with _ | idx
    · omega
    · rcases l with _ | ⟨c, t⟩
      · rfl
      · show headSum (c :: t.insertIdx idx a) (m + 1) = headSum (c :: t) (m + 1)
        unfold headSum
        rw [List.take_succ_cons, List.take_succ_cons, List.map_cons,
          List.map_cons, List.sum_cons, List.sum_cons]
        have := ihm idx t (by omega)
        unfold headSum at this
        omega

theorem cacheSet_ok (cents : List Cent) (c : SumCache) (i sum : ℕ)
    (hC : ∀ j : ℕ, (j : ℤ) ≤ c.valid → c.sums.getD j 0 = headSum cents (4 * (j + 1)))
    (hlen : c.valid < (c.sums.length : ℤ))
    (hlow : ∀ j : ℕ, 4 * (j + 1) < i → c.sums.getD j 0 = headSum cents (4 * (j + 1)))
    (hdvd : 4 ∣ i) (hcap : i ≤ 4 * (c.sums.length + 1))
    (hsum : sum = headSum cents i) :
    ∃ c', cacheSet (some c) i sum = some c' ∧
      (∀ j : ℕ, (j : ℤ) ≤ c'.valid → c'.sums.getD j 0 = headSum cents (4 * (j + 1))) ∧
      c'.valid < (c'.sums.length : ℤ) ∧
      (∀ j : ℕ, 4 * (j + 1) < i + 4 → c'.sums.getD j 0 = headSum cents (4 * (j + 1))) ∧
      i + 4 ≤ 4 * (c'.sums.length + 1) := by
  simp only [cacheSet]
  by_cases h4 : i < 4
  · rw [if_pos h4]
    have hi0 : i = 0 := by omega
    refine ⟨c, rfl, hC, hlen, ?_, ?_⟩
    · intro j hj
      exact absurd hj (by omega)
    · omega
  · rw [if_neg h4]
    have hik : 4 * (i / 4 - 1 + 1) = i := by omega
    have hkle : i / 4 - 1 ≤ c.sums.length := by omega
    have hmain : ∀ j : ℕ, j ≤ i / 4 - 1 →
        (if i / 4 - 1 = c.sums.length then c.sums ++ [sum]
          else c.sums.set (i / 4 - 1) sum).getD j 0 = headSum cents (4 * (j + 1)) := by
      intro j hjk
      by_cases hkl : i / 4 - 1 = c.sums.length
      · rw [if_pos hkl]
        rcases Nat.lt_or_ge j (i / 4 - 1) with hlt | hge
        · rw [List.getD_append _ _ _ _ (by omega)]
          exact hlow j (by omega)
        · have hje : j = i / 4 - 1 := by omega
          subst hje
          rw [hkl]
          have hcc : (c.sums ++ [sum]).getD c.sums.length 0 = sum := by
            simp [List.getD_eq_getElem?_getD, List.getElem?_concat_length]
          rw [hcc, hsum, ← hkl, hik]
      · rw [if_neg hkl]
        have hklt : i / 4 - 1 < c.sums.length := by omega
        rcases eq_or_ne j (i / 4 - 1) with rfl | hne
        · have hcc : (c.sums.set (i / 4 - 1) sum).getD (i / 4 - 1) 0 = sum := by
            simp [List.getD_eq_getElem?_getD, List.getElem?_set, hklt]
          rw [hcc, hsum]
          congr 1
          omega
        · have hcc : (c.sums.set (i / 4 - 1) sum).getD j 0 = c.sums.getD j 0 := by
            simp [List.getD_eq_getElem?_getD, List.getElem?_set_ne (Ne.symm hne)]
          rw [hcc]
          exact hlow j (by omega)
    refine ⟨⟨if i / 4 - 1 = c.sums.length then c.sums ++ [sum]
      else c.sums.set (i / 4 - 1) sum, ((i / 4 - 1 : ℕ) : ℤ)⟩, rfl, ?_, ?_, ?_, ?_⟩
    · dsimp only
      intro j hj
      have hj' : (j : ℤ) ≤ ((i / 4 - 1 : ℕ) : ℤ) := hj
      exact hmain j (by exact_mod_cast hj')
    · dsimp only
      by_cases hkl : i / 4 - 1 = c.sums.length
      · rw [if_pos hkl, List.length_append]
        simp only [List.length_cons, List.length_nil]
        omega
      · rw [if_neg hkl, List.length_set]
        omega
    · dsimp only
      intro j hj
      exact hmain j (by omega)
    · dsimp only
      by_cases hkl : i / 4 - 1 = c.sums.length
      · rw [if_pos hkl, List.length_append]
        simp only [List.length_cons, List.length_nil]
        omega
      · rw [if_neg hkl, List.length_set]
        omega


theorem hsLoop1_cache (cents : List Cent) (endN : ℕ) :
    ∀ (fuel i sum : ℕ) (c : SumCache),
    (∀ j : ℕ, (j : ℤ) ≤ c.valid → c.sums.getD j 0 = headSum cents (4 * (j + 1))) →
    c.valid < (c.sums.length : ℤ) →
    (∀ j : ℕ, 4 * (j + 1) < i → c.sums.getD j 0 = headSum cents (4 * (j + 1))) →
    4 ∣ i → i ≤ 4 * (c.sums.length + 1) → sum = headSum cents i →
    ∃ c', (hsLoop1 cents endN fuel i sum (some c)).2.2 = some c' ∧
      (∀ j : ℕ, (j : ℤ) ≤ c'.valid → c'.sums.getD j 0 = headSum cents (4 * (j + 1))) ∧
      c'.valid < (c'.sums.length : ℤ) := by
  intro fuel
  induction fuel with
  | zero =>
    intro i sum c hC hlen hlow hdvd hcap hsum
    rw [hsLoop1]
    exact ⟨c, rfl, hC, hlen⟩
  | succ fuel ih =>
    intro i sum c hC hlen hlow hdvd hcap hsum
    rw [hsLoop1]
    by_cases h : i + 4 ≤ endN
    · rw [if_pos h]
      obtain ⟨c1, hc1, hC1, hlen1, hlow1, hcap1⟩ :=
        cacheSet_ok cents c i sum hC hlen hlow hdvd hcap hsum
      rw [hc1]
      refine ih (i + 4) _ c1 hC1 hlen1 hlow1 (by omega) hcap1 ?_
      rw [hsum, headSum_succ, headSum_succ, headSum_succ, headSum_succ]
    · rw [if_neg h]
      exact ⟨c, rfl, hC, hlen⟩

theorem cacheGet_sound (cents : List Cent) (c : SumCache) (endN : ℕ)
    (hC : ∀ j : ℕ, (j : ℤ) ≤ c.valid → c.sums.getD j 0 = headSum cents (4 * (j + 1)))
    (hlen : c.valid < (c.sums.length : ℤ)) :
    (cacheGet (some c) endN).2 = headSum cents (cacheGet (some c) endN).1 ∧
    (cacheGet (some c) endN).1 ≤ endN ∧
    4 ∣ (cacheGet (some c) endN).1 ∧
    (∀ j : ℕ, 4 * (j + 1) < (cacheGet (some c) endN).1 →
      c.sums.getD j 0 = headSum cents (4 * (j + 1))) ∧
    (cacheGet (some c) endN).1 ≤ 4 * (c.sums.length + 1) := by
  simp only [cacheGet]
  by_cases h0 : endN < 4 ∨ c.valid < 0
  · rw [if_pos h0]
    refine ⟨rfl, by omega, ⟨0, by omega⟩, ?_, by omega⟩
    intro j hj
    exact absurd hj (by omega)
  · rw [if_neg h0]
    push_neg at h0
    by_cases hk : ((endN / 4 : ℕ) : ℤ) - 1 ≤ c.valid
    · rw [if_pos hk]
      dsimp only
      have hkn : ((((endN / 4 : ℕ) : ℤ) - 1).toNat : ℤ) = ((endN / 4 : ℕ) : ℤ) - 1 := by
        omega
      refine ⟨?_, by omega, ⟨(endN / 4 - 1) + 1, by omega⟩, ?_, by omega⟩
      · have := hC ((((endN / 4 : ℕ) : ℤ) - 1).toNat) (by omega)
        rw [this]
        congr 1
        omega
      · intro j hj
        exact hC j (by omega)
    · rw [if_neg hk]
      dsimp only
      have hv0 : (0 : ℤ) ≤ c.valid := h0.2
      refine ⟨?_, by omega, ⟨c.valid.toNat + 1, by omega⟩, ?_, by omega⟩
      · have := hC c.valid.toNat (by omega)
        rw [this]
        congr 1
        omega
      · intro j hj
        exact hC j (by omega)

theorem headSumC_exact (s : CSummary) (endN : ℕ)
    (hC : CacheOK s.cents s.cache) (hL : CacheLen s.cache) :
    (headSumC s endN).1 = headSum s.cents endN ∧
    (headSumC s endN).2.cents = s.cents ∧
    CacheOK s.cents (headSumC s endN).2.cache ∧
    CacheLen (headSumC s endN).2.cache := by
  rcases hcache : s.cache with _ | c
  · -- no cache at all: the two plain loops
    simp only [headSumC, hcache, cacheGet]
    by_cases h0 : (0 : ℕ) = endN
    · rw [if_pos h0]
      refine ⟨?_, rfl, ?_, ?_⟩
      · rw [← h0]
        rfl
      · rw [hcache]
        trivial
      · rw [hcache]
        trivial
    · rw [if_neg h0]
      have hval := hsLoop1_val s.cents endN endN 0 0 none rfl (by omega) (by omega)
      refine ⟨?_, rfl, ?_, ?_⟩
      · exact hsLoop2_val s.cents endN endN _ _ hval.1 hval.2 (by omega)
      · rw [hsLoop1_none]
        trivial
      · rw [hsLoop1_none]
        trivial
  · simp only [CacheOK, hcache] at hC
    simp only [CacheLen, hcache] at hL
    obtain ⟨hg1, hg2, hg3, hg4, hg5⟩ := cacheGet_sound s.cents c endN hC hL
    simp only [headSumC, hcache]
    by_cases h0 : (cacheGet (some c) endN).1 = endN
    · rw [if_pos h0]
      refine ⟨?_, rfl, ?_, ?_⟩
      · rw [hg1, h0]
      · rw [hcache]
        simpa [CacheOK] using hC
      · rw [hcache]
        simpa [CacheLen] using hL
    · rw [if_neg h0]
      have hval := hsLoop1_val s.cents endN endN (cacheGet (some c) endN).1
        (cacheGet (some c) endN).2 (some c) hg1 hg2 (by omega)
      obtain ⟨c', hc', hC', hlen'⟩ := hsLoop1_cache s.cents endN endN
        (cacheGet (some c) endN).1 (cacheGet (some c) endN).2 c hC hL hg4 hg3 hg5 hg1
      refine ⟨?_, rfl, ?_, ?_⟩
      · exact hsLoop2_val s.cents endN endN _ _ hval.1 hval.2 (by omega)
      · rw [hc']
        simpa [CacheOK] using hC'
      · rw [hc']
        simpa [CacheLen] using hlen'

theorem addC_cache (K : ℕ) (s : CSummary) (key : F) (v : ℕ)
    (hC : CacheOK s.cents s.cache) (hL : CacheLen s.cache) :
    CacheOK (addC K s key v).1.cents (addC K s key v).1.cache ∧
    CacheLen (addC K s key v).1.cache := by
  unfold addC
  by_cases hkey : key.isNone
  · rw [if_pos hkey]
    exact ⟨hC, hL⟩
  · rw [if_neg hkey]
    by_cases hv : v = 0
    · rw [if_pos hv]
      exact ⟨hC, hL⟩
    · rw [if_neg hv]
      rcases hcache : s.cache with _ | c
      · dsimp only
        by_cases hbig : 100 <
            (s.cents.insertIdx (findInsertionIndex s.cents key) ⟨key, v⟩).length
        · rw [if_pos hbig]
          constructor
          · intro j hj
            have hj' : (j : ℤ) ≤ -1 := hj
            exact absurd hj' (by omega)
          · simp only [CacheLen]
            have : (0 : ℤ) ≤ (List.replicate K (0 : ℕ)).length := by positivity
            omega
        · rw [if_neg hbig]
          constructor
          · trivial
          · trivial
      · simp only [CacheOK, hcache] at hC
        simp only [CacheLen, hcache] at hL
        dsimp only
        simp only [cacheInvalidate]
        by_cases hinv : ((findInsertionIndex s.cents key / 4 : ℕ) : ℤ) - 1 - 1
            < c.valid
        · rw [if_pos hinv]
          constructor
          · intro j hj
            have hj' : (j : ℤ) ≤ ((findInsertionIndex s.cents key / 4 : ℕ) : ℤ)
                - 1 - 1 := hj
            have hj2 : (j : ℤ) ≤ c.valid := by omega
            rw [headSum_insertIdx _ _ _ _ (by omega)]
            exact hC j hj2
          · show ((findInsertionIndex s.cents key / 4 : ℕ) : ℤ) - 1 - 1
                < (c.sums.length : ℤ)
            omega
        · rw [if_neg hinv]
          constructor
          · intro j hj
            have hj' : (j : ℤ) ≤ c.valid := hj
            rw [headSum_insertIdx _ _ _ _ (by omega)]
            exact hC j hj'
          · show c.valid < (c.sums.length : ℤ)
            exact hL

theorem ReachC_cache (s : CSummary) (hs : ReachC s) :
    CacheOK s.cents s.cache ∧ CacheLen s.cache := by
  induction hs with
  | init => exact ⟨trivial, trivial⟩
  | add s K key v _ ih => exact addC_cache K s key v ih.1 ih.2
  | head s endN _ hle ih =>
    have h := headSumC_exact s endN ih.1 ih.2
    rw [h.2.1]
    exact ⟨h.2.2.1, h.2.2.2⟩


/-- C10: on every summary state reachable by any interleaving of `Add` and
`HeadSum` calls, `HeadSum(i)` computed through the block prefix-sum cache
returns exactly the plain sum of `counts[0..i)`, for every `0 ≤ i ≤ len` —
the accelerator is semantically transparent. -/
theorem C10_headsum_exact (s : CSummary) (hs : ReachC s) (endN : ℕ)
    (h : endN ≤ s.cents.length) :
    (headSumC s endN).1 = headSum s.cents endN :=
  (headSumC_exact s endN (ReachC_cache s hs).1 (ReachC_cache s hs).2).1

theorem C10_witness :
    (headSumC (addC 0 ⟨[], none⟩ (some 1) 2).1 1).1
      = headSum (addC 0 ⟨[], none⟩ (some 1) 2).1.cents 1 ∧
    headSum (addC 0 ⟨[], none⟩ (some 1) 2).1.cents 1 = 2 :=
  ⟨C10_headsum_exact _ (ReachC.add ⟨[], none⟩ 0 (some 1) 2 ReachC.init) 1
    (by decide), by decide⟩

/-! ## Serialization round-trip (claim C1) -/

theorem float64bits_one : float64bits 1 = 4607182418800017408 := by
  rw [float64bits, if_neg one_ne_zero, abs_one]
  simp only []
  rw [Int.log_one_right]
  norm_num
  decide

theorem roundF32_zero : roundF32 0 = 0 := by
  rw [roundF32, if_pos rfl]

theorem roundF32_one : roundF32 1 = 1 := by
  rw [roundF32, if_neg one_ne_zero, abs_one]
  simp only []
  rw [Int.log_one_right]
  norm_num [roundHalfEven]

theorem float32bits_zero : float32bits 0 = 0 := by
  rw [float32bits, if_pos rfl]
  norm_num

theorem float32bits_one : float32bits 1 = 1065353216 := by
  rw [float32bits, if_neg one_ne_zero, abs_one]
  simp only []
  rw [Int.log_one_right]
  norm_num
  decide

theorem f32enc_zero : f32enc (some 0) = 0 := by
  show float32bits (roundF32 0) = 0
  rw [roundF32_zero, float32bits_zero]

theorem f32enc_one : f32enc (some 1) = 1065353216 := by
  show float32bits (roundF32 1) = 1065353216
  rw [roundF32_one, float32bits_one]

theorem float32frombits_zero : float32frombits 0 = some 0 := by
  norm_num [float32frombits]

theorem float32frombits_one : float32frombits 1065353216 = some 1 := by
  norm_num [float32frombits]

theorem float64frombits_one : float64frombits 4607182418800017408 = some 1 := by
  norm_num [float64frombits]


theorem deltaList_tC1 : deltaList tC1.cents (some 0) = [some 0, some 1, some 1] := by
  norm_num [deltaList, fSub, tC1]

theorem asBytes_tC1 : asBytes tC1 =
    [0,0,0,2, 63,240,0,0,0,0,0,0, 0,0,0,3, 0,0,0,0,
     63,128,0,0, 63,128,0,0, 67,33,1] := by
  rw [asBytes, deltaList_tC1]
  show beBytes 4 2 ++ beBytes 8 (float64bits 1) ++ beBytes 4 (sLen tC1.cents)
      ++ (([some 0, some 1, some 1].map (fun d => beBytes 4 (f32enc d))).flatten)
      ++ ((tC1.cents.map (fun c => putUvarint c.cnt)).flatten) = _
  rw [float64bits_one]
  simp only [List.map_cons, List.map_nil, f32enc_zero, f32enc_one]
  decide

theorem readMeans_tC1 :
    readMeansGo 3 [0,0,0,0, 63,128,0,0, 63,128,0,0, 67,33,1] (some 0)
      = some ([some 0, some 1, some 2], [67,33,1]) := by
  norm_num [readMeansGo, beToNat, float32frombits_zero, float32frombits_one, fAdd]

theorem addC1_1 : addWeighted rng0 5 ⟨[], 1, 0, 0⟩ (some 0) 67
    = (⟨[⟨some 0, 67⟩], 1, 67, 0⟩, none) := by
  have h : awCore rng0 ⟨[], 1, 0, 0⟩ (some 0) 67
      = (⟨[⟨some 0, 67⟩], 1, 67, 0⟩, none) := by
    norm_num [awCore, sLen, summaryAdd, findInsertionIndex]
  simp only [addWeighted, awStep, h]
  rw [if_neg (by norm_num [compressTrigger, sLen] :
    ¬ compressTrigger ⟨[⟨some 0, 67⟩], 1, 67, 0⟩)]

theorem addC1_2 : addWeighted rng0 5 ⟨[⟨some 0, 67⟩], 1, 67, 0⟩ (some 1) 33
    = (⟨[⟨some 0, 67⟩, ⟨some 1, 33⟩], 1, 100, 0⟩, none) := by
  have hb : (sFloor [⟨some 0, 67⟩] (some 1)).toNat = 0 := by decide
  have hf : findNeighbors [⟨some 0, 67⟩] 0 (some 1) = (0, 1) := by
    norm_num [findNeighbors, fnGo, sLen, mAt, fAbs, fSub, fLt, maxFloat64]
  have hc : chooseMergeCandidate rng0 ⟨[⟨some 0, 67⟩], 1, 67, 0⟩ 0 1 33 = (1, 0) := by
    norm_num [chooseMergeCandidate, cmcGo, cAt, headSum, sLen, rng0]
  have h : awCore rng0 ⟨[⟨some 0, 67⟩], 1, 67, 0⟩ (some 1) 33
      = (⟨[⟨some 0, 67⟩, ⟨some 1, 33⟩], 1, 100, 0⟩, none) := by
    rw [awCore, hb]
    simp only [hf, hc]
    norm_num [summaryAdd, findInsertionIndex, fLt, sLen]
  simp only [addWeighted, awStep, h]
  rw [if_neg (by norm_num [compressTrigger, sLen] :
    ¬ compressTrigger ⟨[⟨some 0, 67⟩, ⟨some 1, 33⟩], 1, 100, 0⟩)]

theorem addC1_3 : addWeighted rng0 5 ⟨[⟨some 0, 67⟩, ⟨some 1, 33⟩], 1, 100, 0⟩
      (some 2) 1
    = (⟨[⟨some 0, 67⟩, ⟨some (35/34), 34⟩], 1, 101, 1⟩, none) := by
  have hb : (sFloor [⟨some 0, 67⟩, ⟨some 1, 33⟩] (some 2)).toNat = 1 := by decide
  have hf : findNeighbors [⟨some 0, 67⟩, ⟨some 1, 33⟩] 1 (some 2) = (1, 2) := by
    norm_num [findNeighbors, fnGo, sLen, mAt, fAbs, fSub, fLt, maxFloat64]
  have hc : chooseMergeCandidate rng0 ⟨[⟨some 0, 67⟩, ⟨some 1, 33⟩], 1, 100, 0⟩
      1 2 1 = (1, 1) := by
    norm_num [chooseMergeCandidate, cmcGo, cAt, headSum, sLen, rng0]
  have h : awCore rng0 ⟨[⟨some 0, 67⟩, ⟨some 1, 33⟩], 1, 100, 0⟩ (some 2) 1
      = (⟨[⟨some 0, 67⟩, ⟨some (35/34), 34⟩], 1, 101, 1⟩, none) := by
    rw [awCore, hb]
    simp only [hf, hc]
    norm_num [sLen, cAt, mAt, weightedAverage, fLt, fAdd, fMul, fDiv,
      setAt, bubbleRight, bubbleLeftRev]
  simp only [addWeighted, awStep, h]
  rw [if_neg (by norm_num [compressTrigger, sLen] :
    ¬ compressTrigger ⟨[⟨some 0, 67⟩, ⟨some (35/34), 34⟩], 1, 101, 1⟩)]

theorem C1_decode : fromBytesReader rng0 5 (asBytes tC1)
    = .ok ⟨[⟨some 0, 67⟩, ⟨some (35/34), 34⟩], 1, 101, 1⟩ := by
  rw [asBytes_tC1, fromBytesReader]
  rw [if_neg (by decide)]
  rw [if_neg (by decide)]
  norm_num [beToNat, float64frombits_one, fLt]
  rw [readMeans_tC1]
  show readerCountsGo rng0 5 [some 0, some 1, some 2] [67, 33, 1]
    ⟨[], 1, 0, 0⟩ = _
  rw [readerCountsGo]
  rw [show readUvarint [67, 33, 1] = some (67, [33, 1]) from by decide]
  show readerCountsGo rng0 5 [some 1, some 2] [33, 1]
    (addWeighted rng0 5 ⟨[], 1, 0, 0⟩ (some 0) 67).1 = _
  rw [addC1_1]
  show readerCountsGo rng0 5 [some 1, some 2] [33, 1]
    ⟨[⟨some 0, 67⟩], 1, 67, 0⟩ = _
  rw [readerCountsGo]
  rw [show readUvarint [33, 1] = some (33, [1]) from by decide]
  show readerCountsGo rng0 5 [some 2] [1]
    (addWeighted rng0 5 ⟨[⟨some 0, 67⟩], 1, 67, 0⟩ (some 1) 33).1 = _
  rw [addC1_2]
  show readerCountsGo rng0 5 [some 2] [1]
    ⟨[⟨some 0, 67⟩, ⟨some 1, 33⟩], 1, 100, 0⟩ = _
  rw [readerCountsGo]
  rw [show readUvarint [1] = some (1, ([] : List ℕ)) from by decide]
  show readerCountsGo rng0 5 [] []
    (addWeighted rng0 5 ⟨[⟨some 0, 67⟩, ⟨some 1, 33⟩], 1, 100, 0⟩ (some 2) 1).1 = _
  rw [addC1_3]
  rfl


theorem reachC1_1 : addWeighted rng0 5 (newTD 1) (some 2) 1
    = (⟨[⟨some 2, 1⟩], 1, 1, 0⟩, none) := by
  have h : awCore rng0 (newTD 1) (some 2) 1 = (⟨[⟨some 2, 1⟩], 1, 1, 0⟩, none) := by
    norm_num [awCore, newTD, sLen, summaryAdd, findInsertionIndex]
  simp only [addWeighted, awStep, h]
  rw [if_neg (by norm_num [compressTrigger, sLen] :
    ¬ compressTrigger ⟨[⟨some 2, 1⟩], 1, 1, 0⟩)]

theorem reachC1_2 : addWeighted rng0 5 ⟨[⟨some 2, 1⟩], 1, 1, 0⟩ (some 0) 67
    = (⟨[⟨some 0, 67⟩, ⟨some 2, 1⟩], 1, 68, 0⟩, none) := by
  have hb : (sFloor [⟨some 2, 1⟩] (some 0)).toNat = 0 := by decide
  have hf : findNeighbors [⟨some 2, 1⟩] 0 (some 0) = (0, 1) := by
    norm_num [findNeighbors, fnGo, sLen, mAt, fAbs, fSub, fLt, maxFloat64]
  have hc : chooseMergeCandidate rng0 ⟨[⟨some 2, 1⟩], 1, 1, 0⟩ 0 1 67 = (1, 0) := by
    norm_num [chooseMergeCandidate, cmcGo, cAt, headSum, sLen, rng0]
  have h : awCore rng0 ⟨[⟨some 2, 1⟩], 1, 1, 0⟩ (some 0) 67
      = (⟨[⟨some 0, 67⟩, ⟨some 2, 1⟩], 1, 68, 0⟩, none) := by
    rw [awCore, hb]
    simp only [hf, hc]
    norm_num [summaryAdd, findInsertionIndex, fLt, sLen]
  simp only [addWeighted, awStep, h]
  rw [if_neg (by norm_num [compressTrigger, sLen] :
    ¬ compressTrigger ⟨[⟨some 0, 67⟩, ⟨some 2, 1⟩], 1, 68, 0⟩)]

theorem reachC1_3 : addWeighted rng0 5 ⟨[⟨some 0, 67⟩, ⟨some 2, 1⟩], 1, 68, 0⟩
      (some 1) 33 = (tC1, none) := by
  have hb : (sFloor [⟨some 0, 67⟩, ⟨some 2, 1⟩] (some 1)).toNat = 0 := by decide
  have hf : findNeighbors [⟨some 0, 67⟩, ⟨some 2, 1⟩] 0 (some 1) = (0, 2) := by
    norm_num [findNeighbors, fnGo, sLen, mAt, fAbs, fSub, fLt, maxFloat64]
  have hc : chooseMergeCandidate rng0 ⟨[⟨some 0, 67⟩, ⟨some 2, 1⟩], 1, 68, 0⟩
      0 2 33 = (2, 0) := by
    norm_num [chooseMergeCandidate, cmcGo, cAt, headSum, sLen, rng0]
  have h : awCore rng0 ⟨[⟨some 0, 67⟩, ⟨some 2, 1⟩], 1, 68, 0⟩ (some 1) 33
      = (tC1, none) := by
    rw [awCore, hb]
    simp only [hf, hc]
    norm_num [summaryAdd, findInsertionIndex, fLt, sLen, tC1]
  simp only [addWeighted, awStep, h]
  rw [if_neg (by norm_num [compressTrigger, sLen, tC1] : ¬ compressTrigger tC1)]


/-- C1, counterexample.  The valid digest [(0,67), (1,33), (2,1)] at δ = 1
(reachable by `AddWeighted(2,1)`, `AddWeighted(0,67)`, `AddWeighted(1,33)`
on a fresh digest) has 3 centroids, but decoding its own `AsBytes` output
yields a digest with only 2 centroids and different counts: `FromBytes`
replays the pairs through `Add`, which merges them afresh.  Compression
and total weight do survive — the amended theorem proves exactly that. -/
theorem C1_counterexample :
    addWeighted rng0 5 (newTD 1) (some 2) 1 = (⟨[⟨some 2, 1⟩], 1, 1, 0⟩, none) ∧
    addWeighted rng0 5 ⟨[⟨some 2, 1⟩], 1, 1, 0⟩ (some 0) 67
      = (⟨[⟨some 0, 67⟩, ⟨some 2, 1⟩], 1, 68, 0⟩, none) ∧
    addWeighted rng0 5 ⟨[⟨some 0, 67⟩, ⟨some 2, 1⟩], 1, 68, 0⟩ (some 1) 33
      = (tC1, none) ∧
    fromBytesReader rng0 5 (asBytes tC1)
      = .ok ⟨[⟨some 0, 67⟩, ⟨some (35/34), 34⟩], 1, 101, 1⟩ ∧
    sLen tC1.cents = 3 ∧
    invB tC1 = true :=
  ⟨reachC1_1, reachC1_2, reachC1_3, C1_decode, rfl, by decide⟩



/-! ## Codec round-trip building blocks (claim C1) -/

theorem beBytes_length : ∀ (k v : ℕ), (beBytes k v).length = k := by
  intro k
  induction k with
  | zero => intro v; rfl
  | succ k ih =>
    intro v
    rw [beBytes, List.length_append, ih]
    rfl

theorem beToNat_append1 (l : List ℕ) (b : ℕ) :
    beToNat (l ++ [b]) = beToNat l * 256 + b := by
  unfold beToNat
  rw [List.foldl_append]
  rfl

theorem beToNat_beBytes : ∀ (k v : ℕ), beToNat (beBytes k v) = v % 256 ^ k := by
  intro k
  induction k with
  | zero =>
    intro v
    simp [beBytes, beToNat]
    omega
  | succ k ih =>
    intro v
    rw [beBytes, beToNat_append1, ih]
    have h1 : 256 ^ (k + 1) = 256 * 256 ^ k := by ring
    rw [h1, Nat.mod_mul]
    omega

theorem f32enc_lt (d : F) : f32enc d < 2 ^ 32 := by
  rcases d with _ | q
  · norm_num [f32enc]
  · show float32bits (roundF32 q) < 2 ^ 32
    rw [float32bits]
    exact Nat.mod_lt _ (by norm_num)

theorem float64bits_lt (q : ℚ) : float64bits q < 2 ^ 64 := by
  rw [float64bits]
  exact Nat.mod_lt _ (by norm_num)

theorem putUvarint_roundtrip_go :
    ∀ (f i : ℕ), f + i = 10 → 1 ≤ f →
    ∀ (v x s : ℕ) (rest : List ℕ), v < 2 ^ (7 * (f - 1) + 1) →
    readUvarintGo i x s (putUvarintGo f v ++ rest) = some (x + v * 2 ^ s, rest) := by
  intro f
  induction f with
  | zero => intro i h h1; omega
  | succ f ih =>
    intro i hfi _ v x s rest hv
    by_cases hsmall : v < 0x80
    · rw [putUvarintGo, if_pos hsmall]
      show readUvarintGo i x s (v :: rest) = _
      rw [readUvarintGo, if_pos hsmall]
      have hcond : ¬ (i = 9 ∧ 1 < v) := by
        rintro ⟨h9, hgt⟩
        have hf0 : f = 0 := by omega
        rw [hf0] at hv
        norm_num at hv
        omega
      rw [if_neg hcond]
    · rw [putUvarintGo, if_neg hsmall]
      show readUvarintGo i x s ((v % 0x80 + 0x80) :: (putUvarintGo f (v / 0x80) ++ rest)) = _
      have hf1 : 1 ≤ f := by
        by_contra hf0
        have hf0' : f = 0 := by omega
        rw [hf0'] at hv
        norm_num at hv
        omega
      rw [readUvarintGo]
      rw [if_neg (by omega)]
      rw [if_neg (by omega)]
      have hvrec : v / 0x80 < 2 ^ (7 * (f - 1) + 1) := by
        have h128 : (0x80 : ℕ) = 2 ^ 7 := by norm_num
        rw [h128, Nat.div_lt_iff_lt_mul (by norm_num : 0 < (2:ℕ) ^ 7)]
        calc v < 2 ^ (7 * (f + 1 - 1) + 1) := hv
          _ = 2 ^ (7 * (f - 1) + 1) * 2 ^ 7 := by
            rw [← pow_add]
            congr 1
            omega
      have hrec := ih (i + 1) (by omega) hf1 (v / 0x80)
        (x + (v % 0x80 + 0x80) % 0x80 * 2 ^ s) (s + 7) rest hvrec
      rw [hrec]
      have harith : x + (v % 0x80 + 0x80) % 0x80 * 2 ^ s + v / 0x80 * 2 ^ (s + 7)
          = x + v * 2 ^ s := by
        have hmm : (v % 0x80 + 0x80) % 0x80 = v % 0x80 := by omega
        have hdm : 0x80 * (v / 0x80) + v % 0x80 = v := Nat.div_add_mod v 0x80
        rw [hmm]
        calc x + v % 0x80 * 2 ^ s + v / 0x80 * 2 ^ (s + 7)
            = x + (0x80 * (v / 0x80) + v % 0x80) * 2 ^ s := by
              rw [pow_add]
              ring
          _ = x + v * 2 ^ s := by rw [hdm]
      rw [harith]

theorem putUvarint_roundtrip (v : ℕ) (rest : List ℕ) (hv : v < 2 ^ 64) :
    readUvarint (putUvarint v ++ rest) = some (v, rest) := by
  unfold readUvarint putUvarint
  rw [putUvarint_roundtrip_go 10 0 (by omega) (by omega) v 0 0 rest
    (by norm_num; omega)]
  norm_num


/-! ## Length bookkeeping of the insertion core -/

theorem bubbleRight_length (a : Cent) : ∀ l : List Cent,
    (bubbleRight a l).length = l.length + 1
  | [] => rfl
  | b :: t => by
    rw [bubbleRight]
    by_cases h : fLt b.mean a.mean = true
    · rw [if_pos h]
      simp [bubbleRight_length a t]
    · rw [if_neg h]
      rfl

theorem bubbleLeftRev_length (a : Cent) : ∀ l : List Cent,
    (bubbleLeftRev a l).length = l.length + 1
  | [] => rfl
  | b :: t => by
    rw [bubbleLeftRev]
    by_cases h : fLt a.mean b.mean = true
    · rw [if_pos h]
      simp [bubbleLeftRev_length a t]
    · rw [if_neg h]
      rfl

theorem setAt_length (s : List Cent) (i : ℕ) (m : F) (c : ℕ) (hi : i < s.length) :
    (setAt s i m c).length = s.length := by
  unfold setAt
  simp only [List.length_append, List.length_reverse, bubbleLeftRev_length,
    List.length_take, List.length_drop, List.length_set, bubbleRight_length]
  omega

theorem summaryAdd_len (s : List Cent) (k : F) (v : ℕ) :
    sLen (summaryAdd s k v).1 ≤ sLen s + 1 := by
  unfold summaryAdd
  by_cases h1 : k.isNone = true
  · rw [if_pos h1]
    exact Nat.le_succ _
  · rw [if_neg h1]
    by_cases h2 : v = 0
    · rw [if_pos h2]
      exact Nat.le_succ _
    · rw [if_neg h2]
      exact List.length_insertIdx_le_succ _ _ _

theorem awCore_len (rng : RNG) (t : TD) (q : ℚ) (w : ℕ) (hw : w ≠ 0) (ht : IT t) :
    sLen (awCore rng t (some q) w).1.cents ≤ sLen t.cents + 1 := by
  by_cases hlen : sLen t.cents = 0
  · unfold awCore
    simp only [if_neg hw, if_pos hlen]
    exact summaryAdd_len t.cents (some q) w
  · unfold awCore
    simp only [if_neg hw, if_neg hlen]
    have hb0 : (sFloor t.cents (some q)).toNat ≤ sLen t.cents := by
      unfold sFloor
      have := findIndex_le (some q) t.cents
      unfold sLen
      omega
    set fn := findNeighbors t.cents (sFloor t.cents (some q)).toNat (some q) with hfn
    set cm := chooseMergeCandidate rng t fn.1 fn.2 w with hcmdef
    have hfnle := findNeighbors_le t.cents _ (some q) hb0
    have hrange := chooseMergeCandidate_range rng t fn.1 fn.2 w hfnle.1 hfnle.2
    by_cases hcl : cm.1 = sLen t.cents
    · have hsa : summaryAdd t.cents (some q) w =
          (t.cents.insertIdx (findInsertionIndex t.cents (some q)) ⟨some q, w⟩, none) := by
        simp [summaryAdd, hw]
      simp only [if_pos hcl, hsa]
      exact List.length_insertIdx_le_succ _ _ _
    · have hlt : cm.1 < sLen t.cents := hrange.resolve_left hcl
      simp only [if_neg hcl]
      exact le_trans (le_of_eq (setAt_length t.cents cm.1 _ _ hlt)) (Nat.le_succ _)

/-! ## The decode path of `FromBytes(reader)` on an encoder output -/

theorem fAdd_isSome {x y : F} (hx : x.isSome) (hy : y.isSome) : (fAdd x y).isSome := by
  obtain ⟨a, rfl⟩ := Option.isSome_iff_exists.1 hx
  obtain ⟨b, rfl⟩ := Option.isSome_iff_exists.1 hy
  rfl

theorem deltaList_length : ∀ (l : List Cent) (x : F), (deltaList l x).length = l.length
  | [], _ => rfl
  | c :: rest, x => by simp [deltaList, deltaList_length rest c.mean]

theorem readMeansGo_enc : ∀ (ds : List F) (x : F) (rest : List ℕ),
    (∀ d ∈ ds, (float32frombits (f32enc d)).isSome) → x.isSome →
    ∃ ms : List F,
      readMeansGo ds.length
        ((ds.map (fun d => beBytes 4 (f32enc d))).flatten ++ rest) x
        = some (ms, rest) ∧ ms.length = ds.length ∧ ∀ m ∈ ms, m.isSome := by
  intro ds
  induction ds with
  | nil =>
    intro x rest _ _
    exact ⟨[], rfl, rfl, by simp⟩
  | cons d ds ih =>
    intro x rest hdec hx
    have hx' : (fAdd x (float32frombits (f32enc d))).isSome :=
      fAdd_isSome hx (hdec d (by simp))
    obtain ⟨ms, hms, hlen, hall⟩ := ih (fAdd x (float32frombits (f32enc d))) rest
      (fun e he => hdec e (by simp [he])) hx'
    refine ⟨fAdd x (float32frombits (f32enc d)) :: ms, ?_, by simp [hlen], ?_⟩
    · simp only [List.map_cons, List.flatten_cons, List.append_assoc, List.length_cons]
      rw [readMeansGo]
      rw [if_neg (by simp only [List.length_append, beBytes_length]; omega)]
      rw [List.take_left' (beBytes_length 4 (f32enc d)),
        List.drop_left' (beBytes_length 4 (f32enc d))]
      have h32 : beToNat (beBytes 4 (f32enc d)) = f32enc d := by
        rw [beToNat_beBytes]
        exact Nat.mod_eq_of_lt (lt_of_lt_of_le (f32enc_lt d) (by norm_num))
      simp only []
      rw [h32, hms]
    · intro m hm
      rcases List.mem_cons.1 hm with rfl | hm
      · exact hx'
      · exact hall m hm

theorem readerCountsGo_replay (rng : RNG) (fuel : ℕ) :
    ∀ (ms : List F) (cl : List ℕ) (t : TD), IT t →
    (∀ m ∈ ms, m.isSome) → (∀ c ∈ cl, c ≠ 0 ∧ c < 2 ^ 64) →
    ms.length = cl.length →
    (sLen t.cents : ℚ) + (ms.length : ℚ) ≤ 20 * t.compression →
    ∃ t', readerCountsGo rng fuel ms ((cl.map putUvarint).flatten) t = .ok t' ∧
      IT t' ∧ t'.compression = t.compression ∧ t'.count = t.count + cl.sum := by
  intro ms
  induction ms with
  | nil =>
    intro cl t ht _ _ hlen _
    have hcl : cl = [] := List.length_eq_zero.1 hlen.symm
    subst hcl
    exact ⟨t, rfl, ht, rfl, by simp⟩
  | cons m ms ih =>
    intro cl t ht hms hcl hlen hQ
    rcases cl with _ | ⟨c, cl⟩
    · simp at hlen
    obtain ⟨q, rfl⟩ := Option.isSome_iff_exists.1 (hms m (by simp))
    have hc := hcl c (by simp)
    have hAW := awCore_ok rng t q c hc.1 ht
    have hL := awCore_len rng t q c hc.1 ht
    have hQ' : (sLen t.cents : ℚ) + ((ms.length : ℚ) + 1) ≤ 20 * t.compression := by
      simp only [List.length_cons] at hQ
      push_cast at hQ
      linarith
    have hnt : ¬ compressTrigger (awCore rng t (some q) c).1 := by
      unfold compressTrigger
      rw [hAW.2.2.2]
      push_neg
      have h1 : (sLen (awCore rng t (some q) c).1.cents : ℚ) ≤ (sLen t.cents : ℚ) + 1 := by
        exact_mod_cast hL
      linarith
    have haw1 : (addWeighted rng fuel t (some q) c).1 = (awCore rng t (some q) c).1 := by
      unfold addWeighted awStep
      dsimp only
      rw [hAW.1]
      rw [if_neg hnt]
    have hQrec : (sLen (awCore rng t (some q) c).1.cents : ℚ) + (ms.length : ℚ)
        ≤ 20 * (awCore rng t (some q) c).1.compression := by
      rw [hAW.2.2.2]
      have h1 : (sLen (awCore rng t (some q) c).1.cents : ℚ) ≤ (sLen t.cents : ℚ) + 1 := by
        exact_mod_cast hL
      linarith
    obtain ⟨t', h1, h2, h3, h4⟩ := ih cl ((awCore rng t (some q) c).1) hAW.2.1
      (fun x hx => hms x (by simp [hx])) (fun x hx => hcl x (by simp [hx]))
      (by simpa using hlen) hQrec
    refine ⟨t', ?_, h2, by rw [h3, hAW.2.2.2], ?_⟩
    · rw [show ((c :: cl).map putUvarint).flatten
          = putUvarint c ++ (cl.map putUvarint).flatten from by simp]
      rw [readerCountsGo]
      rw [putUvarint_roundtrip c _ hc.2]
      show readerCountsGo rng fuel ms ((cl.map putUvarint).flatten)
        (addWeighted rng fuel t (some q) c).1 = .ok t'
      rw [haw1]
      exact h1
    · rw [h4, hAW.2.2.1, List.sum_cons]
      omega

/-- C1, amended.  Decoding the `AsBytes` output of a valid digest succeeds
whenever the compression is exactly binary64-representable and at least 1,
the centroid count fits the plausibility bound, every encoded delta decodes
to a finite binary32, every count fits a varint, and the summary is within
the compression trigger budget; the decoded digest is valid and has the
same compression and the same total weight `Count()`.  (Centroid-sequence
equality fails in general — see the counterexample — because `FromBytes`
replays the pairs through `Add`, which may re-merge them.) -/
theorem C1_roundtrip_amended (rng : RNG) (fuel : ℕ) (t : TD) (ht : IT t)
    (hrepr : reprF64 t.compression) (hq : 1 ≤ t.compression)
    (hn : sLen t.cents ≤ 2 ^ 22)
    (hdec : ∀ d ∈ deltaList t.cents (some 0), (float32frombits (f32enc d)).isSome)
    (hcnt : ∀ c ∈ t.cents, c.cnt < 2 ^ 64)
    (hlen : (sLen t.cents : ℚ) ≤ 20 * t.compression) :
    ∃ t', fromBytesReader rng fuel (asBytes t) = .ok t' ∧ IT t' ∧
      t'.compression = t.compression ∧ t'.count = t.count := by
  obtain ⟨ms, hms, hmslen, hmsall⟩ := readMeansGo_enc (deltaList t.cents (some 0))
    (some 0) ((t.cents.map (fun c => putUvarint c.cnt)).flatten) hdec rfl
  have hrepr' : float64frombits (float64bits t.compression) = some t.compression := hrepr
  have h2v : beToNat (beBytes 4 2) = 2 := by decide
  have hb64 : beToNat (beBytes 8 (float64bits t.compression)) = float64bits t.compression := by
    rw [beToNat_beBytes]
    refine Nat.mod_eq_of_lt ?_
    have h := float64bits_lt t.compression
    norm_num at h ⊢
    omega
  have hn4 : beToNat (beBytes 4 (sLen t.cents)) = sLen t.cents := by
    rw [beToNat_beBytes]
    refine Nat.mod_eq_of_lt ?_
    have h := hn
    norm_num at h ⊢
    omega
  have hflt : ¬ fLt (some t.compression) (some 1) = true := by
    simp only [fLt, decide_eq_true_eq]
    exact not_lt.2 hq
  have hms' : readMeansGo (sLen t.cents)
      (((deltaList t.cents (some 0)).map (fun d => beBytes 4 (f32enc d))).flatten
        ++ (t.cents.map (fun c => putUvarint c.cnt)).flatten) (some 0)
      = some (ms, (t.cents.map (fun c => putUvarint c.cnt)).flatten) := by
    have h := hms
    rw [deltaList_length] at h
    exact h
  have hfb : fromBytesReader rng fuel (asBytes t)
      = readerCountsGo rng fuel ms ((t.cents.map (fun c => putUvarint c.cnt)).flatten)
        { cents := [], compression := t.compression, count := 0, pos := 0 } := by
    unfold fromBytesReader asBytes
    simp only [List.append_assoc]
    rw [List.take_left' (beBytes_length 4 2), List.drop_left' (beBytes_length 4 2)]
    rw [h2v]
    rw [if_neg (by simp only [List.length_append, beBytes_length]; omega)]
    rw [if_neg (by norm_num)]
    rw [if_neg (by simp only [List.length_append, beBytes_length]; omega)]
    rw [List.take_left' (beBytes_length 8 (float64bits t.compression)),
      List.drop_left' (beBytes_length 8 (float64bits t.compression))]
    rw [hb64, hrepr']
    rw [if_neg hflt]
    rw [if_neg (by simp only [List.length_append, beBytes_length]; omega)]
    rw [List.take_left' (beBytes_length 4 (sLen t.cents)),
      List.drop_left' (beBytes_length 4 (sLen t.cents))]
    rw [hn4]
    rw [if_neg (by omega : ¬ 2 ^ 22 < sLen t.cents)]
    rw [hms']
    rfl
  have hmsn : ms.length = sLen t.cents := by
    rw [hmslen, deltaList_length]
    rfl
  have hEc' : ((t.cents.map Cent.cnt).map putUvarint).flatten
      = (t.cents.map (fun c => putUvarint c.cnt)).flatten := by
    rw [List.map_map]
    rfl
  have hIT0 : IT { cents := ([] : List Cent), compression := t.compression, count := 0, pos := 0 } :=
    ⟨List.Pairwise.nil, by simp, by simp, rfl⟩
  obtain ⟨t', h1, h2, h3, h4⟩ := readerCountsGo_replay rng fuel ms (t.cents.map Cent.cnt)
    { cents := [], compression := t.compression, count := 0, pos := 0 } hIT0 hmsall
    (fun x hx => by
      obtain ⟨cc, hcc, rfl⟩ := List.mem_map.1 hx
      exact ⟨(ht.posCnt cc hcc).ne', hcnt cc hcc⟩)
    (by rw [hmsn, List.length_map]; rfl)
    (by
      show (sLen ([] : List Cent) : ℚ) + (ms.length : ℚ) ≤ 20 * t.compression
      rw [hmsn]
      norm_num [sLen]
      exact hlen)
  refine ⟨t', ?_, h2, h3, ?_⟩
  · rw [hfb, ← hEc']
    exact h1
  · rw [h4]
    show 0 + (t.cents.map Cent.cnt).sum = t.count
    rw [Nat.zero_add]
    exact ht.total

/-- Witness for the amended C1: the digest [(0,67), (1,33), (2,1)] at δ = 1
satisfies every hypothesis, and decoding its encoding succeeds with the
compression and the total weight preserved. -/
theorem C1_roundtrip_witness :
    IT tC1 ∧ reprF64 tC1.compression ∧ (1 : ℚ) ≤ tC1.compression ∧
    (sLen tC1.cents : ℚ) ≤ 20 * tC1.compression ∧
    (∃ t', fromBytesReader rng0 5 (asBytes tC1) = .ok t' ∧ IT t' ∧
      t'.compression = tC1.compression ∧ t'.count = tC1.count) := by
  have hIT : IT tC1 := IT_of_invB (by decide)
  have hrepr : reprF64 tC1.compression := by
    show float64frombits (float64bits 1) = some 1
    rw [float64bits_one]
    exact float64frombits_one
  have hq : (1 : ℚ) ≤ tC1.compression := le_refl 1
  have hlen : (sLen tC1.cents : ℚ) ≤ 20 * tC1.compression := by norm_num [tC1, sLen]
  have hn : sLen tC1.cents ≤ 2 ^ 22 := by norm_num [tC1, sLen]
  have hcnt : ∀ c ∈ tC1.cents, c.cnt < 2 ^ 64 := by decide
  have hdec : ∀ d ∈ deltaList tC1.cents (some 0), (float32frombits (f32enc d)).isSome := by
    intro d hd
    rw [deltaList_tC1] at hd
    rcases List.mem_cons.1 hd with rfl | hd
    · rw [f32enc_zero, float32frombits_zero]
      rfl
    rcases List.mem_cons.1 hd with rfl | hd
    · rw [f32enc_one, float32frombits_one]
      rfl
    rcases List.mem_cons.1 hd with rfl | hd
    · rw [f32enc_one, float32frombits_one]
      rfl
    exact absurd hd (List.not_mem_nil d)
  exact ⟨hIT, hrepr, hq, hlen,
    C1_roundtrip_amended rng0 5 tC1 hIT hrepr hq hn hdec hcnt hlen⟩

end GoTDigest
